import Mathlib

/-!
A verification development for the PFor codec (`src/headers/pfor.h`).

Shallow embedding of the PFor (Patched Frame-of-Reference) integer codec.
Buffers of 32-bit words are modelled as `List ℕ` whose entries are below
`2 ^ 32`; pointer cursors become list indices, in-place writes become
`List.set`, and C masks/shifts on `uint32_t` become `% / *` arithmetic with
an explicit `% 2 ^ 32` where a stored value may overflow.  Assertion
failures and undefined behaviour of the original are modelled as `none`.
-/

set_option maxHeartbeats 1600000
set_option maxRecDepth 4000

namespace PFor

/-- `BlockSize = BlockSizeInUnitsOfPackSize * PACKSIZE = 4 * 32`. -/
def BlockSize : ℕ := 128

/-- `PACKSIZE = 32`. -/
def PACKSIZE : ℕ := 32

/-- Modelled from the spec: `constexprbits(BlockSize)` comes from `util.h`, which
is not under `src/`; the spec fixes the field width to
`ceil(log2(BlockSize+1)) = 8` bits. -/
def blocksizeinbits : ℕ := 8

/-! ## The fixed-width bit packing primitive

`fastpack` / `fastunpack` live in `bitpacking.h`, which is not under `src/`.
Modelled from the spec: `pack(values : [N]u32, width b) -> [ceil(N*b/32)]u32`
packs 32 values into `b` words as the concatenated little-endian `b`-bit
bitstream, "lossless for all values < 2^b", and `fastunpack` is its exact
inverse.  The bitstream of a list of base-`2^w` digits is represented by the
natural number it denotes. -/

/-- The natural number whose base-`2 ^ w` digits (little-endian) are the given
list, each entry truncated to `w` bits. -/
def digitsNat (w : ℕ) : List ℕ → ℕ
  | [] => 0
  | v :: vs => v % 2 ^ w + 2 ^ w * digitsNat w vs

/-- Modelled from the spec: `fastpack` packs 32 values of width `b` into `b`
32-bit words (the `b`-bit bitstream of the values, cut into 32-bit words). -/
def fastpack (vs : List ℕ) (b : ℕ) : List ℕ :=
  (List.range b).map (fun i => digitsNat b vs / 2 ^ (32 * i) % 2 ^ 32)

/-- Modelled from the spec: `fastunpack` extracts 32 values of width `b` from
`b` packed 32-bit words; exact inverse of `fastpack`. -/
def fastunpack (ws : List ℕ) (b : ℕ) : List ℕ :=
  (List.range 32).map (fun k => digitsNat 32 ws / 2 ^ (b * k) % 2 ^ b)

lemma digitsNat_lt (w : ℕ) (vs : List ℕ) : digitsNat w vs < 2 ^ (w * vs.length) := by
  induction vs with
  | nil => simp [digitsNat]
  | cons v vs ih =>
    have hw : 0 < 2 ^ w := pow_pos (by norm_num) w
    have hm : v % 2 ^ w < 2 ^ w := Nat.mod_lt _ hw
    have h2 : 2 ^ w * digitsNat w vs + 2 ^ w = 2 ^ w * (digitsNat w vs + 1) := by ring
    have h3 : 2 ^ w * (digitsNat w vs + 1) ≤ 2 ^ w * 2 ^ (w * vs.length) :=
      Nat.mul_le_mul_left _ (by omega)
    have h4 : 2 ^ w * 2 ^ (w * vs.length) = 2 ^ (w * (v :: vs).length) := by
      rw [List.length_cons, Nat.mul_succ, pow_add, Nat.mul_comm]
    rw [digitsNat, ← h4]
    omega

lemma digitsNat_extract (w : ℕ) (vs : List ℕ) (k : ℕ) (hk : k < vs.length) :
    digitsNat w vs / 2 ^ (w * k) % 2 ^ w = vs.getD k 0 % 2 ^ w := by
  induction vs generalizing k with
  | nil => simp at hk
  | cons v vs ih =>
    have hw : 0 < 2 ^ w := pow_pos (by norm_num) w
    cases k with
    | zero =>
      simp only [digitsNat, Nat.mul_zero, pow_zero, Nat.div_one, List.getD_cons_zero]
      rw [Nat.add_mul_mod_self_left]
      exact Nat.mod_mod_of_dvd v dvd_rfl
    | succ k =>
      have hsplit : 2 ^ (w * (k + 1)) = 2 ^ w * 2 ^ (w * k) := by
        rw [← pow_add]; ring_nf
      have hdiv : digitsNat w (v :: vs) / 2 ^ w = digitsNat w vs := by
        rw [digitsNat, Nat.add_mul_div_left _ _ hw,
          Nat.div_eq_of_lt (Nat.mod_lt _ hw), Nat.zero_add]
      rw [hsplit, ← Nat.div_div_eq_div_mul, hdiv, List.getD_cons_succ]
      exact ih k (by simpa using hk)

lemma digitsNat_reconstruct (m : ℕ) : ∀ N : ℕ, N < 2 ^ (32 * m) →
    digitsNat 32 ((List.range m).map (fun i => N / 2 ^ (32 * i) % 2 ^ 32)) = N := by
  induction m with
  | zero =>
    intro N hN
    interval_cases N
    simp [digitsNat]
  | succ m ih =>
    intro N hN
    have h32 : 0 < 2 ^ 32 := by norm_num
    rw [List.range_succ_eq_map, List.map_cons, List.map_map]
    have hfun : ((fun i => N / 2 ^ (32 * i) % 2 ^ 32) ∘ Nat.succ) =
        fun i => (N / 2 ^ 32) / 2 ^ (32 * i) % 2 ^ 32 := by
      funext i
      simp only [Function.comp_apply]
      rw [Nat.div_div_eq_div_mul, ← pow_add, Nat.succ_eq_add_one]
      have h : 32 * (i + 1) = 32 + 32 * i := by ring
      rw [h]
    rw [hfun]
    have hlt : N / 2 ^ 32 < 2 ^ (32 * m) := by
      rw [Nat.div_lt_iff_lt_mul h32]
      have h : 2 ^ (32 * (m + 1)) = 2 ^ (32 * m) * 2 ^ 32 := by
        rw [← pow_add]
        have h2 : 32 * (m + 1) = 32 * m + 32 := by ring
        rw [h2]
      omega
    rw [digitsNat, ih _ hlt]
    simp only [Nat.mul_zero, pow_zero, Nat.div_one]
    rw [Nat.mod_mod_of_dvd N dvd_rfl, Nat.mod_add_div]

lemma fastpack_length (vs : List ℕ) (b : ℕ) : (fastpack vs b).length = b := by
  simp [fastpack]

lemma fastunpack_length (ws : List ℕ) (b : ℕ) : (fastunpack ws b).length = 32 := by
  simp [fastunpack]

lemma range_map_getD (vs : List ℕ) (f : ℕ → ℕ) :
    (List.range vs.length).map (fun k => f (vs.getD k 0)) = vs.map f := by
  induction vs with
  | nil => simp
  | cons v vs ih =>
    rw [List.length_cons, List.range_succ_eq_map, List.map_cons, List.map_map]
    simp only [List.getD_cons_zero, List.map_cons]
    have h : ∀ a ∈ List.range vs.length,
        ((fun k => f ((v :: vs).getD k 0)) ∘ Nat.succ) a = (fun k => f (vs.getD k 0)) a := by
      intro a _
      simp only [Function.comp_apply, Nat.succ_eq_add_one, List.getD_cons_succ]
    rw [List.map_congr_left h, ih]

lemma digitsNat_fastpack (vs : List ℕ) (b : ℕ) (hl : vs.length = 32) :
    digitsNat 32 (fastpack vs b) = digitsNat b vs := by
  have hlt : digitsNat b vs < 2 ^ (32 * b) := by
    have := digitsNat_lt b vs
    rw [hl] at this
    calc digitsNat b vs < 2 ^ (b * 32) := this
      _ = 2 ^ (32 * b) := by ring_nf
  exact digitsNat_reconstruct b _ hlt

lemma fastunpack_fastpack (vs : List ℕ) (b : ℕ) (hl : vs.length = 32) :
    fastunpack (fastpack vs b) b = vs.map (fun v => v % 2 ^ b) := by
  rw [fastunpack, digitsNat_fastpack vs b hl]
  have h : ∀ k ∈ List.range 32,
      digitsNat b vs / 2 ^ (b * k) % 2 ^ b = vs.getD k 0 % 2 ^ b := by
    intro k hk
    rw [List.mem_range] at hk
    exact digitsNat_extract b vs k (by omega)
  rw [List.map_congr_left h]
  have h2 := range_map_getD vs (fun v => v % 2 ^ b)
  rw [hl] at h2
  exact h2

lemma fastunpack_words (ws : List ℕ) (hl : ws.length = 32) :
    fastunpack ws 32 = ws.map (fun v => v % 2 ^ 32) := by
  rw [fastunpack]
  have h : ∀ k ∈ List.range 32,
      digitsNat 32 ws / 2 ^ (32 * k) % 2 ^ 32 = ws.getD k 0 % 2 ^ 32 := by
    intro k hk
    rw [List.mem_range] at hk
    exact digitsNat_extract 32 ws k (by omega)
  rw [List.map_congr_left h]
  have h2 := range_map_getD ws (fun v => v % 2 ^ 32)
  rw [hl] at h2
  exact h2

/-! ## Whole-block pack / unpack

`packblock` / `unpackblock` (pfor.h lines 156–169) call the 32-value
primitive on the four 32-value subgroups of a 128-value block, advancing the
word cursor by `bit` words per group. -/

/-- `packblock`: pack the four 32-value subgroups of one block. -/
def packblock (source : List ℕ) (bit : ℕ) : List ℕ :=
  fastpack (source.take 32) bit ++ fastpack ((source.drop 32).take 32) bit ++
    fastpack ((source.drop 64).take 32) bit ++ fastpack ((source.drop 96).take 32) bit

/-- `unpackblock`: unpack the four 32-value subgroups of one block. -/
def unpackblock (source : List ℕ) (bit : ℕ) : List ℕ :=
  fastunpack (source.take bit) bit ++ fastunpack ((source.drop bit).take bit) bit ++
    fastunpack ((source.drop (2 * bit)).take bit) bit ++
    fastunpack ((source.drop (3 * bit)).take bit) bit

lemma packblock_length (s : List ℕ) (b : ℕ) : (packblock s b).length = 4 * b := by
  simp [packblock, fastpack_length]; ring

lemma unpackblock_length (s : List ℕ) (b : ℕ) : (unpackblock s b).length = 128 := by
  simp [unpackblock, fastunpack_length]

lemma take_append_of_length (l1 l2 : List ℕ) (n : ℕ) (h : l1.length = n) :
    (l1 ++ l2).take n = l1 := by
  subst h; exact List.take_left l1 l2

lemma drop_append_of_length (l1 l2 : List ℕ) (n : ℕ) (h : l1.length = n) :
    (l1 ++ l2).drop n = l2 := by
  subst h; exact List.drop_left l1 l2

lemma quad_slices (a1 a2 a3 a4 : List ℕ) (b : ℕ) (h1 : a1.length = b)
    (h2 : a2.length = b) (h3 : a3.length = b) (h4 : a4.length = b) :
    (a1 ++ a2 ++ a3 ++ a4).take b = a1 ∧
    ((a1 ++ a2 ++ a3 ++ a4).drop b).take b = a2 ∧
    ((a1 ++ a2 ++ a3 ++ a4).drop (2 * b)).take b = a3 ∧
    ((a1 ++ a2 ++ a3 ++ a4).drop (3 * b)).take b = a4 := by
  have ha : a1 ++ a2 ++ a3 ++ a4 = a1 ++ (a2 ++ (a3 ++ a4)) := by
    simp [List.append_assoc]
  have d1 : (a1 ++ a2 ++ a3 ++ a4).drop b = a2 ++ (a3 ++ a4) := by
    rw [ha]; exact drop_append_of_length _ _ b h1
  have d2 : (a1 ++ a2 ++ a3 ++ a4).drop (2 * b) = a3 ++ a4 := by
    have hb : 2 * b = b + b := by ring
    rw [hb, ← List.drop_drop, d1]
    exact drop_append_of_length _ _ b h2
  have d3 : (a1 ++ a2 ++ a3 ++ a4).drop (3 * b) = a4 := by
    have hb : 3 * b = 2 * b + b := by ring
    rw [hb, ← List.drop_drop, d2]
    exact drop_append_of_length _ _ b h3
  refine ⟨?_, ?_, ?_, ?_⟩
  · rw [ha]; exact take_append_of_length _ _ b h1
  · rw [d1]; exact take_append_of_length _ _ b h2
  · rw [d2]; exact take_append_of_length _ _ b h3
  · rw [d3]; exact List.take_of_length_le (le_of_eq h4)

lemma unpackblock_packblock (s : List ℕ) (b : ℕ) (hl : s.length = 128) :
    unpackblock (packblock s b) b = s.map (fun v => v % 2 ^ b) := by
  have h1 : (s.take 32).length = 32 := by rw [List.length_take]; omega
  have h2 : ((s.drop 32).take 32).length = 32 := by
    rw [List.length_take, List.length_drop]; omega
  have h3 : ((s.drop 64).take 32).length = 32 := by
    rw [List.length_take, List.length_drop]; omega
  have h4 : ((s.drop 96).take 32).length = 32 := by
    rw [List.length_take, List.length_drop]; omega
  obtain ⟨e1, e2, e3, e4⟩ := quad_slices (fastpack (s.take 32) b)
    (fastpack ((s.drop 32).take 32) b) (fastpack ((s.drop 64).take 32) b)
    (fastpack ((s.drop 96).take 32) b) b (fastpack_length _ b) (fastpack_length _ b)
    (fastpack_length _ b) (fastpack_length _ b)
  rw [unpackblock, packblock, e1, e2, e3, e4,
    fastunpack_fastpack _ b h1, fastunpack_fastpack _ b h2,
    fastunpack_fastpack _ b h3, fastunpack_fastpack _ b h4]
  have h96 : (s.drop 96).take 32 = s.drop 96 := by
    apply List.take_of_length_le
    rw [List.length_drop]; omega
  rw [h96]
  have d64 : (s.drop 32).drop 32 = s.drop 64 := by rw [List.drop_drop]
  have d96 : (s.drop 64).drop 32 = s.drop 96 := by rw [List.drop_drop]
  have step : ∀ t : List ℕ, t.map (fun v => v % 2 ^ b) =
      (t.take 32).map (fun v => v % 2 ^ b) ++ (t.drop 32).map (fun v => v % 2 ^ b) := by
    intro t; rw [← List.map_append, List.take_append_drop]
  conv_rhs => rw [step s]
  rw [step (s.drop 32), d64, step (s.drop 64), d96]
  simp [List.append_assoc]

/-! ## The block encoder `compressblockPFOR` (pfor.h lines 102–154)

The scan `miss[exceptcounter] = k; exceptcounter += (in[k] >= maxgap)`
collects, in increasing order, the in-block positions whose value is
`≥ maxgap = 2 ^ b`.  The patch loops mutate a scratch copy (`codedcopy`)
of the block and append raw exception values to the exception cursor. -/

/-- The list `miss[0..exceptcounter)`: positions `k < BlockSize` with
`in[k] >= maxgap`, in increasing order. -/
def missOf (inp : List ℕ) (maxgap : ℕ) : List ℕ :=
  (List.range BlockSize).filter (fun k => decide (maxgap ≤ inp.getD k 0))

/-- The inner `while (cur > maxgap + prev)` loop of `compressblockPFOR`
(lines 133–139): insert compulsory exceptions at `prev + maxgap` until the
gap to `cur` is representable.  State is `(codedcopy, exceptions, prev)`;
`maxgap = 2 ^ b ≥ 1`, which is what makes the loop terminate. -/
def compulsoryLoop (b : ℕ) (cc exc : List ℕ) (prev cur : ℕ) : List ℕ × List ℕ × ℕ :=
  if h : 2 ^ b + prev < cur then
    compulsoryLoop b (cc.set prev (2 ^ b - 1)) (exc ++ [cc.getD (prev + 2 ^ b) 0])
      (prev + 2 ^ b) cur
  else (cc, exc, prev)
termination_by cur - prev
decreasing_by
  have hp : 0 < 2 ^ b := pow_pos (by norm_num) b
  omega

/-- The `for (i = 1; i < exceptcounter; ++i)` loop of `compressblockPFOR` in
the `maxgap < BlockSize` branch (lines 130–143), over the remaining real
exception positions. -/
def patchLoop (b : ℕ) (cc exc : List ℕ) (prev : ℕ) : List ℕ → List ℕ × List ℕ × ℕ
  | [] => (cc, exc, prev)
  | cur :: rest =>
    let r := compulsoryLoop b cc exc prev cur
    patchLoop b (r.1.set r.2.2 (cur - r.2.2 - 1)) (r.2.1 ++ [r.1.getD cur 0]) cur rest

/-- The same loop in the `maxgap >= BlockSize` branch (lines 145–150), which
omits the compulsory-exception while loop. -/
def patchLoopSimple (cc exc : List ℕ) (prev : ℕ) : List ℕ → List ℕ × List ℕ × ℕ
  | [] => (cc, exc, prev)
  | cur :: rest =>
    patchLoopSimple (cc.set prev (cur - prev - 1)) (exc ++ [cc.getD cur 0]) cur rest

/-- Lines 124–151 of `compressblockPFOR` for a block with at least one
exception: copy the block into `codedcopy`, emit the first exception's raw
value, then run the patch loop over the remaining exception positions.
Returns the final `(codedcopy, exceptions, prev)`. -/
def patchBlock (inp : List ℕ) (b : ℕ) : List ℕ × List ℕ × ℕ :=
  let miss := missOf inp (2 ^ b)
  let firstexcept := miss.headD 0
  let cc0 := inp.take BlockSize
  if 2 ^ b < BlockSize then
    patchLoop b cc0 [cc0.getD firstexcept 0] firstexcept miss.tail
  else
    patchLoopSimple cc0 [cc0.getD firstexcept 0] firstexcept miss.tail

/-- Result of `compressblockPFOR`: the packed words written to `outputbegin`,
the raw values appended to the exception cursor, and the returned
first-exception position. -/
structure BlockCompressResult where
  packed : List ℕ
  exceptions : List ℕ
  firstexcept : ℕ
deriving DecidableEq

/-- `compressblockPFOR` (pfor.h lines 102–154). -/
def compressblockPFOR (inp : List ℕ) (b : ℕ) : BlockCompressResult :=
  if b = 32 then ⟨inp.take BlockSize, [], BlockSize⟩
  else
    let maxgap := 2 ^ b
    let miss := missOf inp maxgap
    if miss = [] then ⟨packblock (inp.take BlockSize) b, [], BlockSize⟩
    else
      let r := patchBlock inp b
      ⟨packblock r.1 b, r.2.1, miss.headD 0⟩

/-! ## The block decoder `uncompressblockPFOR` (pfor.h lines 273–285) -/

/-- The exception-chain walk of `uncompressblockPFOR`: while the exception
cursor has not reached `end_exception`, read the gap code stored at the
current position, compute the next position, and overwrite the current slot
with the next raw exception value.  The cursor range `[i, end_exception)` is
modelled by the list `excs` of its values. -/
def chainWalk (outb : List ℕ) (excs : List ℕ) (cur : ℕ) : List ℕ :=
  match excs with
  | [] => outb
  | e :: rest => chainWalk (outb.set cur e) rest (cur + outb.getD cur 0 + 1)

/-- `uncompressblockPFOR`: bit-unpack the block, then walk the exception
chain starting at `next_exception` (the header's first-exception field). -/
def uncompressblockPFOR (inputbegin : List ℕ) (b : ℕ) (excs : List ℕ)
    (next_exception : ℕ) : List ℕ :=
  chainWalk (unpackblock inputbegin b) excs next_exception

/-! ## Small `getD` API -/

lemma getD_set_self (l : List ℕ) (i v : ℕ) (h : i < l.length) :
    (l.set i v).getD i 0 = v := by
  rw [List.getD_eq_getElem?_getD, List.getElem?_set_self h]
  rfl

lemma getD_set_ne (l : List ℕ) (i j v : ℕ) (h : i ≠ j) :
    (l.set i v).getD j 0 = l.getD j 0 := by
  rw [List.getD_eq_getElem?_getD, List.getElem?_set_ne h, ← List.getD_eq_getElem?_getD]

lemma getD_take (l : List ℕ) (n i : ℕ) (h : i < n) :
    (l.take n).getD i 0 = l.getD i 0 := by
  rw [List.getD_eq_getElem?_getD, List.getElem?_take, if_pos h, ← List.getD_eq_getElem?_getD]

lemma getD_drop (l : List ℕ) (n i : ℕ) :
    (l.drop n).getD i 0 = l.getD (n + i) 0 := by
  rw [List.getD_eq_getElem?_getD, List.getElem?_drop, ← List.getD_eq_getElem?_getD]

lemma getD_map_lt (f : ℕ → ℕ) (l : List ℕ) (i : ℕ) (h : i < l.length) :
    (l.map f).getD i 0 = f (l.getD i 0) := by
  rw [List.getD_eq_getElem?_getD, List.getElem?_map, List.getElem?_eq_getElem h,
    List.getD_eq_getElem l 0 h]
  rfl

lemma getD_append_left (l1 l2 : List ℕ) (i : ℕ) (h : i < l1.length) :
    (l1 ++ l2).getD i 0 = l1.getD i 0 := by
  rw [List.getD_eq_getElem?_getD, List.getElem?_append_left h, ← List.getD_eq_getElem?_getD]

lemma getD_append_right (l1 l2 : List ℕ) (i : ℕ) (h : l1.length ≤ i) :
    (l1 ++ l2).getD i 0 = l2.getD (i - l1.length) 0 := by
  rw [List.getD_eq_getElem?_getD, List.getElem?_append_right h, ← List.getD_eq_getElem?_getD]

/-! ## The exception chain

`mids b prev cur` lists the compulsory-exception positions the inner while
loop inserts between `prev` and `cur`; `chainOf b prev rest` is the full
sequence of chain positions after `prev` for the remaining real exception
positions `rest`; `applyGaps` performs the gap-code writes of the patch
loops: every chain position except the last is overwritten with the distance
(minus one) to its successor. -/

/-- Positions `prev + maxgap, prev + 2*maxgap, ...` of the compulsory
exceptions inserted between `prev` and `cur`. -/
def mids (b prev cur : ℕ) : List ℕ :=
  if h : 2 ^ b + prev < cur then (prev + 2 ^ b) :: mids b (prev + 2 ^ b) cur else []
termination_by cur - prev
decreasing_by
  have hp : 0 < 2 ^ b := pow_pos (by norm_num) b
  omega

/-- All chain positions strictly after `prev` contributed by the next real
exception `cur`: the compulsory positions, then `cur` itself. -/
def chainSeg (b prev cur : ℕ) : List ℕ := mids b prev cur ++ [cur]

/-- All chain positions strictly after `prev` for a list of remaining real
exception positions. -/
def chainOf (b prev : ℕ) : List ℕ → List ℕ
  | [] => []
  | cur :: rest => chainSeg b prev cur ++ chainOf b cur rest

/-- Write the gap codes along a chain: each position except the last is set
to the distance (minus one) to its successor. -/
def applyGaps (cc : List ℕ) : List ℕ → List ℕ
  | p :: q :: rest => applyGaps (cc.set p (q - p - 1)) (q :: rest)
  | _ => cc

lemma mids_mem_aux (b : ℕ) : ∀ n prev cur, cur - prev ≤ n →
    ∀ x ∈ mids b prev cur, prev < x ∧ x < cur ∧ (prev + 2 ^ b) ≤ x := by
  intro n
  induction n with
  | zero =>
    intro prev cur hn x hx
    by_cases hc : 2 ^ b + prev < cur
    · exfalso
      generalize 2 ^ b = M at hc
      omega
    · rw [mids, dif_neg hc] at hx
      simp at hx
  | succ n ih =>
    intro prev cur hn x hx
    by_cases hc : 2 ^ b + prev < cur
    · rw [mids, dif_pos hc] at hx
      have hp : 0 < 2 ^ b := pow_pos (by norm_num) b
      rcases List.mem_cons.mp hx with h | h
      · generalize 2 ^ b = M at h hc hp ⊢
        omega
      · have h2 := ih (prev + 2 ^ b) cur
          (by generalize 2 ^ b = M at hc hp ⊢; omega) x h
        generalize 2 ^ b = M at h2 hc hp ⊢
        omega
    · rw [mids, dif_neg hc] at hx
      simp at hx

lemma mids_mem (b prev cur x : ℕ) (hx : x ∈ mids b prev cur) :
    prev < x ∧ x < cur ∧ (prev + 2 ^ b) ≤ x :=
  mids_mem_aux b (cur - prev) prev cur le_rfl x hx

/-! ## Lemmas about `applyGaps` and `getLastD` -/

lemma applyGaps_nil (cc : List ℕ) : applyGaps cc [] = cc := rfl

lemma applyGaps_single (cc : List ℕ) (p : ℕ) : applyGaps cc [p] = cc := rfl

lemma applyGaps_cons2 (cc : List ℕ) (p q : ℕ) (rest : List ℕ) :
    applyGaps cc (p :: q :: rest) = applyGaps (cc.set p (q - p - 1)) (q :: rest) := rfl

lemma getLastD_cons_irrel (y : ℕ) (ys : List ℕ) (d d' : ℕ) :
    (y :: ys).getLastD d = (y :: ys).getLastD d' := by
  rw [List.getLastD_cons, List.getLastD_cons]

lemma getLastD_cons_mem (l : List ℕ) : ∀ a : ℕ, (a :: l).getLastD 0 ∈ a :: l := by
  induction l with
  | nil => intro a; simp
  | cons c l ih =>
    intro a
    rw [List.getLastD_cons, getLastD_cons_irrel c l a 0]
    exact List.mem_cons_of_mem a (ih c)

lemma getLastD_append_cons (xs : List ℕ) (y : ℕ) (ys : List ℕ) :
    ∀ d : ℕ, (xs ++ y :: ys).getLastD d = (y :: ys).getLastD d := by
  induction xs with
  | nil => intro d; rfl
  | cons x xs ih =>
    intro d
    rw [List.cons_append, List.getLastD_cons]
    rcases xs with - | ⟨x2, xs2⟩
    · rw [List.nil_append, getLastD_cons_irrel y ys x d]
    · rw [ih x, getLastD_cons_irrel y ys x d]

lemma applyGaps_length (chain : List ℕ) : ∀ cc : List ℕ,
    (applyGaps cc chain).length = cc.length := by
  induction chain with
  | nil => intro cc; rfl
  | cons p rest ih =>
    rcases rest with - | ⟨q, rest2⟩
    · intro cc; rfl
    · intro cc
      rw [applyGaps_cons2, ih]
      exact List.length_set cc p _

lemma applyGaps_getD_not_mem (chain : List ℕ) : ∀ (cc : List ℕ) (r : ℕ),
    (∀ p ∈ chain, p ≠ r) → (applyGaps cc chain).getD r 0 = cc.getD r 0 := by
  induction chain with
  | nil => intro cc r _; rfl
  | cons p rest ih =>
    rcases rest with - | ⟨q, rest2⟩
    · intro cc r _; rfl
    · intro cc r h
      rw [applyGaps_cons2, ih _ r (fun p2 hp2 => h p2 (List.mem_cons_of_mem p hp2))]
      exact getD_set_ne cc p r _ (h p (List.mem_cons_self p _))

lemma applyGaps_getD_getLast (chain : List ℕ) : ∀ cc : List ℕ,
    chain.Pairwise (· < ·) →
    (applyGaps cc chain).getD (chain.getLastD 0) 0 = cc.getD (chain.getLastD 0) 0 := by
  induction chain with
  | nil => intro cc _; rfl
  | cons p rest ih =>
    rcases rest with - | ⟨q, rest2⟩
    · intro cc _; rfl
    · intro cc hs
      obtain ⟨hlt, hs2⟩ := List.pairwise_cons.mp hs
      rw [applyGaps_cons2]
      rw [List.getLastD_cons, getLastD_cons_irrel q rest2 p 0]
      rw [ih _ hs2]
      apply getD_set_ne
      intro hEq
      have hmem := getLastD_cons_mem rest2 q
      have := hlt _ hmem
      omega

lemma applyGaps_getD_gap (chain : List ℕ) : ∀ (cc : List ℕ) (j : ℕ),
    chain.Pairwise (· < ·) → j + 1 < chain.length → chain.getD j 0 < cc.length →
    (applyGaps cc chain).getD (chain.getD j 0) 0 =
      chain.getD (j + 1) 0 - chain.getD j 0 - 1 := by
  induction chain with
  | nil => intro cc j _ hj; simp at hj
  | cons p rest ih =>
    rcases rest with - | ⟨q, rest2⟩
    · intro cc j _ hj _; simp at hj
    · intro cc j hs hj hlen
      obtain ⟨hlt, hs2⟩ := List.pairwise_cons.mp hs
      rcases j with - | j
      · simp only [List.getD_cons_zero, List.getD_cons_succ] at hlen ⊢
        rw [applyGaps_cons2]
        rw [applyGaps_getD_not_mem (q :: rest2) _ p ?_]
        · exact getD_set_self cc p _ hlen
        · intro x hx hEq
          have := hlt x hx
          omega
      · simp only [List.getD_cons_succ] at hj hlen ⊢
        rw [applyGaps_cons2]
        exact ih _ j hs2 (by simpa using hj) (by rw [List.length_set]; exact hlen)

/-! ## Characterization of the patch loops -/

lemma compulsoryLoop_spec (b : ℕ) : ∀ n prev cur cc exc, cur - prev ≤ n →
    compulsoryLoop b cc exc prev cur =
      (applyGaps cc (prev :: mids b prev cur),
       exc ++ (mids b prev cur).map (fun p => cc.getD p 0),
       (prev :: mids b prev cur).getLastD 0) := by
  intro n
  induction n with
  | zero =>
    intro prev cur cc exc hn
    have hc : ¬ (2 ^ b + prev < cur) := by
      generalize 2 ^ b = M
      omega
    rw [compulsoryLoop, dif_neg hc, mids, dif_neg hc]
    simp [applyGaps_single]
  | succ n ih =>
    intro prev cur cc exc hn
    by_cases hc : 2 ^ b + prev < cur
    · have hp : 0 < 2 ^ b := pow_pos (by norm_num) b
      rw [compulsoryLoop, dif_pos hc, mids, dif_pos hc]
      rw [ih (prev + 2 ^ b) cur _ _ (by generalize 2 ^ b = M at hc hp ⊢; omega)]
      refine congrArg₂ _ ?_ (congrArg₂ _ ?_ ?_)
      · rw [applyGaps_cons2]
        have hg : prev + 2 ^ b - prev - 1 = 2 ^ b - 1 := by
          generalize 2 ^ b = M
          omega
        rw [hg]
      · rw [List.map_cons, List.append_assoc, List.singleton_append]
        congr 2
        apply List.map_congr_left
        intro x hx
        have hmem := mids_mem b (prev + 2 ^ b) cur x hx
        apply getD_set_ne
        generalize 2 ^ b = M at hmem hp ⊢
        omega
      · rw [List.getLastD_cons, List.getLastD_cons, List.getLastD_cons]
    · rw [compulsoryLoop, dif_neg hc, mids, dif_neg hc]
      simp [applyGaps_single]

lemma compulsoryLoop_eq (b prev cur : ℕ) (cc exc : List ℕ) :
    compulsoryLoop b cc exc prev cur =
      (applyGaps cc (prev :: mids b prev cur),
       exc ++ (mids b prev cur).map (fun p => cc.getD p 0),
       (prev :: mids b prev cur).getLastD 0) :=
  compulsoryLoop_spec b (cur - prev) prev cur cc exc le_rfl

/-! ## `applyGaps` along concatenated chains -/

lemma applyGaps_append_last (xs : List ℕ) : ∀ (cc : List ℕ) (cur : ℕ), xs ≠ [] →
    applyGaps cc (xs ++ [cur]) =
      (applyGaps cc xs).set (xs.getLastD 0) (cur - xs.getLastD 0 - 1) := by
  induction xs with
  | nil => intro cc cur h; exact absurd rfl h
  | cons p xs ih =>
    rcases xs with - | ⟨q, xs2⟩
    · intro cc cur h
      rw [List.cons_append, List.nil_append, applyGaps_cons2, applyGaps_single,
        applyGaps_single]
      simp
    · intro cc cur h
      rw [List.cons_append, List.cons_append, applyGaps_cons2, ← List.cons_append,
        ih _ cur (by simp), applyGaps_cons2]
      simp only [List.getLastD_cons]

lemma applyGaps_append_cons (xs : List ℕ) : ∀ (cc : List ℕ) (m : ℕ) (ys : List ℕ),
    applyGaps cc (xs ++ m :: ys) = applyGaps (applyGaps cc (xs ++ [m])) (m :: ys) := by
  induction xs with
  | nil =>
    intro cc m ys
    rw [List.nil_append, List.nil_append, applyGaps_single]
  | cons p xs ih =>
    rcases xs with - | ⟨q, xs2⟩
    · intro cc m ys
      rw [List.cons_append, List.nil_append, applyGaps_cons2,
        List.cons_append, List.nil_append, applyGaps_cons2, applyGaps_single]
    · intro cc m ys
      rw [List.cons_append, List.cons_append, applyGaps_cons2, ← List.cons_append, ih]
      congr 1

/-! ## Properties of the chain positions -/

lemma getLastD_chainSeg (b prev cur : ℕ) :
    (prev :: chainSeg b prev cur).getLastD 0 = cur := by
  rw [chainSeg, ← List.cons_append, getLastD_append_cons]
  simp

lemma chainSeg_chain_aux (b : ℕ) : ∀ n prev cur, cur - prev ≤ n → prev < cur →
    List.Chain (fun p q => p < q ∧ q ≤ 2 ^ b + p) prev (chainSeg b prev cur) := by
  intro n
  induction n with
  | zero =>
    intro prev cur hn hpc
    omega
  | succ n ih =>
    intro prev cur hn hpc
    have hp : 0 < 2 ^ b := pow_pos (by norm_num) b
    by_cases hc : 2 ^ b + prev < cur
    · rw [chainSeg, mids, dif_pos hc, List.cons_append]
      apply List.Chain.cons
      · constructor
        · generalize 2 ^ b = M at hp ⊢; omega
        · generalize 2 ^ b = M at hp ⊢; omega
      · have := ih (prev + 2 ^ b) cur
          (by generalize 2 ^ b = M at hp hc ⊢; omega)
          (by generalize 2 ^ b = M at hp hc ⊢; omega)
        rw [chainSeg] at this
        exact this
    · rw [chainSeg, mids, dif_neg hc, List.nil_append]
      apply List.Chain.cons
      · constructor
        · exact hpc
        · generalize 2 ^ b = M at hc ⊢; omega
      · exact List.Chain.nil

lemma chainSeg_chain (b prev cur : ℕ) (hpc : prev < cur) :
    List.Chain (fun p q => p < q ∧ q ≤ 2 ^ b + p) prev (chainSeg b prev cur) :=
  chainSeg_chain_aux b (cur - prev) prev cur le_rfl hpc

lemma chainOf_chain (b : ℕ) (rest : List ℕ) : ∀ prev,
    List.Chain' (· < ·) (prev :: rest) →
    List.Chain (fun p q => p < q ∧ q ≤ 2 ^ b + p) prev (chainOf b prev rest) := by
  induction rest with
  | nil => intro prev _; exact List.Chain.nil
  | cons cur rest ih =>
    intro prev h
    have hpc : prev < cur := (List.chain'_cons.mp h).1
    rw [chainOf, chainSeg, List.append_assoc, List.singleton_append, List.chain_split]
    constructor
    · have := chainSeg_chain b prev cur hpc
      rw [chainSeg] at this
      exact this
    · exact ih cur (List.chain'_cons.mp h).2

/-- The chain relation implies strict order along the chain (with transitivity). -/
lemma chain_pairwise_lt (prev : ℕ) (chain : List ℕ)
    (h : List.Chain (fun p q => p < q ∧ q ≤ 2 ^ b + p) prev chain) :
    List.Pairwise (· < ·) (prev :: chain) := by
  have h2 : List.Chain (· < ·) prev chain := List.Chain.imp (fun a c hac => hac.1) h
  exact List.chain_iff_pairwise.mp h2

lemma chainOf_pairwise (b : ℕ) (rest : List ℕ) (prev : ℕ)
    (h : List.Chain' (· < ·) (prev :: rest)) :
    List.Pairwise (· < ·) (prev :: chainOf b prev rest) :=
  chain_pairwise_lt prev _ (chainOf_chain b rest prev h)

lemma chainOf_mem_gt (b : ℕ) (rest : List ℕ) (prev : ℕ)
    (h : List.Chain' (· < ·) (prev :: rest)) :
    ∀ x ∈ chainOf b prev rest, prev < x :=
  (List.pairwise_cons.mp (chainOf_pairwise b rest prev h)).1

lemma sub_chainOf (b : ℕ) (rest : List ℕ) : ∀ prev, rest ⊆ chainOf b prev rest := by
  induction rest with
  | nil => intro prev x hx; exact absurd hx (List.not_mem_nil x)
  | cons cur rest ih =>
    intro prev x hx
    rw [chainOf, chainSeg, List.append_assoc, List.singleton_append]
    rcases List.mem_cons.mp hx with h | h
    · subst h
      exact List.mem_append_right _ (List.mem_cons_self x _)
    · exact List.mem_append_right _ (List.mem_cons_of_mem _ (ih cur h))

lemma getLastD_chainOf (b : ℕ) (rest : List ℕ) : ∀ prev, rest ≠ [] →
    (prev :: chainOf b prev rest).getLastD 0 = rest.getLastD 0 := by
  induction rest with
  | nil => intro prev h; exact absurd rfl h
  | cons cur rest ih =>
    intro prev _
    rw [chainOf, chainSeg, List.append_assoc, List.singleton_append, ← List.cons_append,
      getLastD_append_cons]
    rcases rest with - | ⟨r2, rest2⟩
    · rfl
    · have h2 := ih cur (by simp)
      simp only [List.getLastD_cons] at h2 ⊢
      exact h2

/-- In a strictly sorted list every element is at most the last one. -/
lemma mem_le_getLastD (l : List ℕ) : ∀ x ∈ l, List.Pairwise (· < ·) l →
    x ≤ l.getLastD 0 := by
  induction l with
  | nil => intro x hx; exact absurd hx (List.not_mem_nil x)
  | cons a l ih =>
    intro x hx hs
    obtain ⟨hlt, hs2⟩ := List.pairwise_cons.mp hs
    rcases List.mem_cons.mp hx with h | h
    · subst h
      rcases l with - | ⟨c, l2⟩
      · simp
      · rw [List.getLastD_cons, getLastD_cons_irrel c l2 x 0]
        exact le_of_lt (hlt _ (getLastD_cons_mem l2 c))
    · rcases l with - | ⟨c, l2⟩
      · exact absurd h (List.not_mem_nil x)
      · rw [List.getLastD_cons, getLastD_cons_irrel c l2 a 0]
        exact ih x h hs2

/-! ## Characterization of `patchLoop` -/

lemma patchLoop_spec (b : ℕ) (rest : List ℕ) : ∀ cc exc prev,
    List.Chain' (· < ·) (prev :: rest) →
    patchLoop b cc exc prev rest =
      (applyGaps cc (prev :: chainOf b prev rest),
       exc ++ (chainOf b prev rest).map (fun p => cc.getD p 0),
       (prev :: chainOf b prev rest).getLastD 0) := by
  induction rest with
  | nil =>
    intro cc exc prev _
    rw [patchLoop, chainOf]
    simp [applyGaps_single]
  | cons cur rest ih =>
    intro cc exc prev h
    have hpc : prev < cur := (List.chain'_cons.mp h).1
    have hmidlt : ∀ x ∈ prev :: mids b prev cur, x < cur := by
      intro x hx
      rcases List.mem_cons.mp hx with h2 | h2
      · omega
      · exact (mids_mem b prev cur x h2).2.1
    have hL : (prev :: mids b prev cur).getLastD 0 < cur :=
      hmidlt _ (getLastD_cons_mem _ prev)
    rw [patchLoop, compulsoryLoop_eq]
    simp only []
    rw [applyGaps_getD_not_mem _ _ cur (fun p hp => by have := hmidlt p hp; omega)]
    rw [← applyGaps_append_last (prev :: mids b prev cur) cc cur (by simp)]
    rw [ih _ _ cur (List.chain'_cons.mp h).2]
    have hchain : chainOf b prev (cur :: rest) = (mids b prev cur ++ [cur]) ++
        chainOf b cur rest := by
      rw [chainOf, chainSeg]
    have hsplit : prev :: chainOf b prev (cur :: rest) =
        ((prev :: mids b prev cur) ++ [cur]) ++ chainOf b cur rest := by
      rw [hchain]
      simp [List.append_assoc]
    have hmapeq : (chainOf b cur rest).map
          (fun p => (applyGaps cc ((prev :: mids b prev cur) ++ [cur])).getD p 0) =
        (chainOf b cur rest).map (fun p => cc.getD p 0) := by
      apply List.map_congr_left
      intro x hx
      have hgt : cur < x := chainOf_mem_gt b rest cur (List.chain'_cons.mp h).2 x hx
      apply applyGaps_getD_not_mem
      intro p hp
      rcases List.mem_append.mp hp with h2 | h2
      · have := hmidlt p h2; omega
      · rw [List.mem_singleton] at h2; omega
    refine congrArg₂ _ ?_ (congrArg₂ _ ?_ ?_)
    · rw [hsplit, List.append_assoc, List.singleton_append]
      exact (applyGaps_append_cons (prev :: mids b prev cur) cc cur (chainOf b cur rest)).symm
    · rw [hchain]
      rw [List.map_append, List.map_append, List.map_cons, List.map_nil, hmapeq]
      simp [List.append_assoc]
    · rw [hsplit, List.append_assoc, List.singleton_append, getLastD_append_cons]

/-! ## More `getD` helpers -/

lemma getD_mem_of_lt (l : List ℕ) (n : ℕ) (h : n < l.length) : l.getD n 0 ∈ l := by
  rw [List.getD_eq_getElem l 0 h]
  exact List.getElem_mem h

lemma ext_getD (l1 l2 : List ℕ) (hlen : l1.length = l2.length)
    (h : ∀ r < l1.length, l1.getD r 0 = l2.getD r 0) : l1 = l2 := by
  apply List.ext_getElem hlen
  intro n h1 h2
  have h3 := h n h1
  rwa [List.getD_eq_getElem l1 0 h1, List.getD_eq_getElem l2 0 h2] at h3

lemma chain'_getD (R : ℕ → ℕ → Prop) (l : List ℕ) (h : List.Chain' R l) (j : ℕ)
    (hj : j + 1 < l.length) : R (l.getD j 0) (l.getD (j + 1) 0) := by
  have h2 := List.chain'_iff_get.mp h j (by omega)
  rwa [List.get_eq_getElem, List.get_eq_getElem, ← List.getD_eq_getElem l 0 (by omega),
    ← List.getD_eq_getElem l 0 hj] at h2

/-! ## Properties of `missOf` -/

lemma missOf_pairwise (inp : List ℕ) (maxgap : ℕ) :
    (missOf inp maxgap).Pairwise (· < ·) :=
  List.Pairwise.sublist (List.filter_sublist _) (List.pairwise_lt_range _)

lemma missOf_mem (inp : List ℕ) (maxgap x : ℕ) :
    x ∈ missOf inp maxgap ↔ x < BlockSize ∧ maxgap ≤ inp.getD x 0 := by
  simp [missOf, List.mem_filter, List.mem_range]

lemma missOf_head_least (inp : List ℕ) (maxgap : ℕ) (h : missOf inp maxgap ≠ []) :
    (missOf inp maxgap).headD 0 ∈ missOf inp maxgap ∧
    ∀ j < (missOf inp maxgap).headD 0, ¬ (j ∈ missOf inp maxgap) := by
  obtain ⟨m, t, hmt⟩ := List.exists_cons_of_ne_nil h
  rw [hmt]
  simp only [List.headD_cons]
  refine ⟨List.mem_cons_self m t, ?_⟩
  intro j hj hmem
  have hp := missOf_pairwise inp maxgap
  rw [hmt] at hp
  rcases List.mem_cons.mp hmem with h2 | h2
  · omega
  · have := (List.pairwise_cons.mp hp).1 j h2
    omega

/-! ## `patchLoopSimple` agrees with `patchLoop` when the gaps always fit -/

lemma patchLoopSimple_eq (b : ℕ) (rest : List ℕ) : ∀ cc exc prev,
    (∀ x ∈ rest, x ≤ 2 ^ b) →
    patchLoopSimple cc exc prev rest = patchLoop b cc exc prev rest := by
  induction rest with
  | nil => intro cc exc prev _; rfl
  | cons cur rest ih =>
    intro cc exc prev h
    have hc : ¬ (2 ^ b + prev < cur) := by
      have h2 := h cur (List.mem_cons_self cur rest)
      generalize 2 ^ b = M at h2 ⊢
      omega
    rw [patchLoopSimple, patchLoop, compulsoryLoop, dif_neg hc]
    exact ih _ _ _ (fun x hx => h x (List.mem_cons_of_mem _ hx))

/-! ## The full exception chain of a block -/

/-- The sequence of in-block positions whose values `compressblockPFOR` emits
to the exception list: the first real exception followed by all compulsory
and real exception positions, in increasing order. -/
def fullChain (inp : List ℕ) (b : ℕ) : List ℕ :=
  (missOf inp (2 ^ b)).headD 0 ::
    chainOf b ((missOf inp (2 ^ b)).headD 0) (missOf inp (2 ^ b)).tail

lemma missOf_chain' (inp : List ℕ) (b : ℕ) (h : missOf inp (2 ^ b) ≠ []) :
    List.Chain' (· < ·)
      ((missOf inp (2 ^ b)).headD 0 :: (missOf inp (2 ^ b)).tail) := by
  obtain ⟨m, t, hmt⟩ := List.exists_cons_of_ne_nil h
  have hp := missOf_pairwise inp (2 ^ b)
  rw [hmt]
  simp only [List.headD_cons, List.tail_cons]
  rw [List.chain'_iff_pairwise]
  rw [hmt] at hp
  exact hp

lemma fullChain_pairwise (inp : List ℕ) (b : ℕ) (h : missOf inp (2 ^ b) ≠ []) :
    (fullChain inp b).Pairwise (· < ·) :=
  chainOf_pairwise b _ _ (missOf_chain' inp b h)

lemma fullChain_chain' (inp : List ℕ) (b : ℕ) (h : missOf inp (2 ^ b) ≠ []) :
    List.Chain' (fun p q => p < q ∧ q ≤ 2 ^ b + p) (fullChain inp b) :=
  chainOf_chain b _ _ (missOf_chain' inp b h)

lemma fullChain_mem_lt (inp : List ℕ) (b : ℕ) (h : missOf inp (2 ^ b) ≠ []) :
    ∀ x ∈ fullChain inp b, x < BlockSize := by
  obtain ⟨m, t, hmt⟩ := List.exists_cons_of_ne_nil h
  intro x hx
  have hm : m ∈ missOf inp (2 ^ b) := by rw [hmt]; exact List.mem_cons_self m t
  have hmlt : m < BlockSize := ((missOf_mem inp (2 ^ b) m).mp hm).1
  have hlast : (fullChain inp b).getLastD 0 < BlockSize := by
    rcases t with - | ⟨r2, t2⟩
    · rw [fullChain, hmt]
      simp only [List.headD_cons, List.tail_cons, chainOf, List.getLastD_cons,
        List.getLastD_nil]
      exact hmlt
    · rw [fullChain, hmt]
      simp only [List.headD_cons, List.tail_cons]
      rw [getLastD_chainOf b _ m (by simp)]
      have hmem2 : (r2 :: t2).getLastD 0 ∈ missOf inp (2 ^ b) := by
        rw [hmt]
        exact List.mem_cons_of_mem m (getLastD_cons_mem t2 r2)
      exact ((missOf_mem inp (2 ^ b) _).mp hmem2).1
  have hle := mem_le_getLastD (fullChain inp b) x hx (fullChain_pairwise inp b h)
  omega

lemma missOf_sub_fullChain (inp : List ℕ) (b : ℕ) (h : missOf inp (2 ^ b) ≠ []) :
    missOf inp (2 ^ b) ⊆ fullChain inp b := by
  obtain ⟨m, t, hmt⟩ := List.exists_cons_of_ne_nil h
  intro x hx
  rw [fullChain, hmt] at *
  simp only [List.headD_cons, List.tail_cons]
  rcases List.mem_cons.mp hx with h2 | h2
  · subst h2; exact List.mem_cons_self x _
  · exact List.mem_cons_of_mem m (sub_chainOf b t m h2)

lemma patchBlock_spec (inp : List ℕ) (b : ℕ) (hl : inp.length ≤ BlockSize)
    (hmiss : missOf inp (2 ^ b) ≠ []) :
    patchBlock inp b =
      (applyGaps inp (fullChain inp b),
       (fullChain inp b).map (fun p => inp.getD p 0),
       (fullChain inp b).getLastD 0) := by
  have htake : inp.take BlockSize = inp := List.take_of_length_le hl
  have hch := missOf_chain' inp b hmiss
  rw [patchBlock]
  simp only [htake]
  have hspec := patchLoop_spec b (missOf inp (2 ^ b)).tail inp
    [inp.getD ((missOf inp (2 ^ b)).headD 0) 0] ((missOf inp (2 ^ b)).headD 0) hch
  rw [fullChain, List.map_cons]
  by_cases hcase : 2 ^ b < BlockSize
  · rw [if_pos hcase, hspec, List.singleton_append]
  · rw [if_neg hcase]
    rw [patchLoopSimple_eq b _ inp _ _ ?_ , hspec, List.singleton_append]
    intro x hx
    have hx2 : x ∈ missOf inp (2 ^ b) := by
      obtain ⟨m, t, hmt⟩ := List.exists_cons_of_ne_nil hmiss
      rw [hmt]
      rw [hmt] at hx
      exact List.mem_cons_of_mem m hx
    have := ((missOf_mem inp (2 ^ b) x).mp hx2).1
    rw [BlockSize] at hcase this
    omega

/-! ## The decoder's chain walk -/

lemma chainWalk_spec (inp : List ℕ) : ∀ (chain U : List ℕ),
    List.Pairwise (· < ·) chain →
    (∀ j, j + 1 < chain.length →
      U.getD (chain.getD j 0) 0 = chain.getD (j + 1) 0 - chain.getD j 0 - 1) →
    chainWalk U (chain.map (fun p => inp.getD p 0)) (chain.headD 0) =
      chain.foldl (fun u p => u.set p (inp.getD p 0)) U := by
  intro chain
  induction chain with
  | nil => intro U _ _; rfl
  | cons p rest ih =>
    intro U hs hgap
    rw [List.map_cons, chainWalk, List.foldl_cons]
    simp only [List.headD_cons]
    rcases rest with - | ⟨q, rest2⟩
    · rfl
    · have hpq : p < q :=
        (List.pairwise_cons.mp hs).1 q (List.mem_cons_self q rest2)

      have hg0 := hgap 0 (by simp)
      simp only [List.getD_cons_zero, List.getD_cons_succ] at hg0
      have hnext : p + U.getD p 0 + 1 = q := by omega
      rw [hnext]
      have htail : List.Pairwise (· < ·) (q :: rest2) := (List.pairwise_cons.mp hs).2
      have hgap2 : ∀ j, j + 1 < (q :: rest2).length →
          (U.set p (inp.getD p 0)).getD ((q :: rest2).getD j 0) 0 =
            (q :: rest2).getD (j + 1) 0 - (q :: rest2).getD j 0 - 1 := by
        intro j hj
        have hne : p ≠ (q :: rest2).getD j 0 := by
          have hmem : (q :: rest2).getD j 0 ∈ q :: rest2 :=
            getD_mem_of_lt _ j (by simp at hj ⊢; omega)
          have := (List.pairwise_cons.mp hs).1 _ hmem
          omega
        rw [getD_set_ne U p _ _ hne]
        have := hgap (j + 1) (by simp at hj ⊢; omega)
        simpa only [List.getD_cons_succ] using this
      exact ih (U.set p (inp.getD p 0)) htail hgap2

lemma foldl_set_length (inp : List ℕ) (chain : List ℕ) : ∀ U : List ℕ,
    (chain.foldl (fun u p => u.set p (inp.getD p 0)) U).length = U.length := by
  induction chain with
  | nil => intro U; rfl
  | cons p rest ih =>
    intro U
    rw [List.foldl_cons, ih, List.length_set]

lemma foldl_set_getD (inp : List ℕ) (chain : List ℕ) : ∀ (U : List ℕ) (r : ℕ),
    (∀ p ∈ chain, p < U.length) →
    (chain.foldl (fun u p => u.set p (inp.getD p 0)) U).getD r 0 =
      if r ∈ chain then inp.getD r 0 else U.getD r 0 := by
  induction chain with
  | nil => intro U r _; simp
  | cons p rest ih =>
    intro U r hlen
    rw [List.foldl_cons,
      ih _ r (fun x hx => by
        rw [List.length_set]; exact hlen x (List.mem_cons_of_mem _ hx))]
    by_cases hr : r ∈ rest
    · rw [if_pos hr, if_pos (List.mem_cons_of_mem _ hr)]
    · rw [if_neg hr]
      by_cases hpr : p = r
      · subst hpr
        rw [if_pos (List.mem_cons_self p rest)]
        exact getD_set_self U p _ (hlen p (List.mem_cons_self p rest))
      · rw [if_neg (by
          intro hmem
          rcases List.mem_cons.mp hmem with h2 | h2
          · exact hpr h2.symm
          · exact hr h2)]
        exact getD_set_ne U p r _ hpr

/-! ## Unpacking identities -/

lemma map_quad_assemble (s : List ℕ) (f : ℕ → ℕ) (hl : s.length = 128) :
    (s.take 32).map f ++ ((s.drop 32).take 32).map f ++ ((s.drop 64).take 32).map f ++
      ((s.drop 96).take 32).map f = s.map f := by
  have h96 : (s.drop 96).take 32 = s.drop 96 := by
    apply List.take_of_length_le
    rw [List.length_drop]; omega
  rw [h96]
  have d64 : (s.drop 32).drop 32 = s.drop 64 := by rw [List.drop_drop]
  have d96 : (s.drop 64).drop 32 = s.drop 96 := by rw [List.drop_drop]
  have step : ∀ t : List ℕ, t.map f = (t.take 32).map f ++ (t.drop 32).map f := by
    intro t; rw [← List.map_append, List.take_append_drop]
  conv_rhs => rw [step s]
  rw [step (s.drop 32), d64, step (s.drop 64), d96]
  simp [List.append_assoc]

lemma unpackblock_id (s : List ℕ) (hl : s.length = 128) :
    unpackblock s 32 = s.map (fun v => v % 2 ^ 32) := by
  have h1 : (s.take 32).length = 32 := by rw [List.length_take]; omega
  have h2 : ((s.drop 32).take 32).length = 32 := by
    rw [List.length_take, List.length_drop]; omega
  have h3 : ((s.drop 64).take 32).length = 32 := by
    rw [List.length_take, List.length_drop]; omega
  have h4 : ((s.drop 96).take 32).length = 32 := by
    rw [List.length_take, List.length_drop]; omega
  rw [unpackblock, fastunpack_words _ h1, fastunpack_words _ h2, fastunpack_words _ h3,
    fastunpack_words _ h4]
  exact map_quad_assemble s _ hl

lemma map_mod_id (l : List ℕ) (m : ℕ) (h : ∀ v ∈ l, v < m) :
    l.map (fun v => v % m) = l := by
  have h2 : ∀ v ∈ l, (fun v => v % m) v = id v := by
    intro v hv
    simp only [id]
    exact Nat.mod_eq_of_lt (h v hv)
  rw [List.map_congr_left h2, List.map_id]

/-! ## Round trip for one block -/

lemma getD_lt_of_all_lt (inp : List ℕ) (m : ℕ) (hv : ∀ v ∈ inp, v < m) (hm : 0 < m)
    (k : ℕ) : inp.getD k 0 < m := by
  by_cases hk : k < inp.length
  · exact hv _ (getD_mem_of_lt inp k hk)
  · rw [List.getD_eq_getElem?_getD, List.getElem?_eq_none (by omega)]
    exact hm

lemma block_roundtrip (inp : List ℕ) (b : ℕ) (hl : inp.length = BlockSize)
    (hv : ∀ v ∈ inp, v < 2 ^ 32) (hb : b ≤ 32) :
    uncompressblockPFOR (compressblockPFOR inp b).packed b
      (compressblockPFOR inp b).exceptions (compressblockPFOR inp b).firstexcept = inp := by
  have hl128 : inp.length = 128 := hl
  by_cases hb32 : b = 32
  · subst hb32
    rw [compressblockPFOR, if_pos rfl]
    rw [uncompressblockPFOR, chainWalk]
    rw [List.take_of_length_le (le_of_eq hl)]
    rw [unpackblock_id inp hl128]
    exact map_mod_id inp _ hv
  · by_cases hmiss : missOf inp (2 ^ b) = []
    · have hsmall : ∀ k, inp.getD k 0 < 2 ^ b := by
        intro k
        by_cases hk : k < 128
        · by_contra hge
          have : k ∈ missOf inp (2 ^ b) := by
            rw [missOf_mem]
            exact ⟨hk, by omega⟩
          rw [hmiss] at this
          exact absurd this (List.not_mem_nil k)
        · rw [List.getD_eq_getElem?_getD, List.getElem?_eq_none (by omega)]
          exact pow_pos (by norm_num) b
      rw [compressblockPFOR, if_neg hb32]
      rw [if_pos hmiss]
      rw [uncompressblockPFOR, chainWalk]
      rw [List.take_of_length_le (le_of_eq hl)]
      rw [unpackblock_packblock inp b hl128]
      apply map_mod_id
      intro v hv2
      obtain ⟨k, hk, hkv⟩ := List.mem_iff_getElem.mp hv2
      rw [← List.getD_eq_getElem inp 0 hk] at hkv
      rw [← hkv]
      exact hsmall k
    · -- the interesting case: at least one exception
      have hchain_pw := fullChain_pairwise inp b hmiss
      have hchain_lt := fullChain_mem_lt inp b hmiss
      have hchainR := fullChain_chain' inp b hmiss
      have hP := patchBlock_spec inp b (le_of_eq hl) hmiss
      rw [compressblockPFOR, if_neg hb32]
      rw [if_neg hmiss, hP]
      rw [uncompressblockPFOR]
      have hccF_len : (applyGaps inp (fullChain inp b)).length = 128 := by
        rw [applyGaps_length, hl128]
      have hU : unpackblock (packblock (applyGaps inp (fullChain inp b)) b) b =
          (applyGaps inp (fullChain inp b)).map (fun v => v % 2 ^ b) :=
        unpackblock_packblock _ b hccF_len
      have hhead : (missOf inp (2 ^ b)).headD 0 = (fullChain inp b).headD 0 := by
        rw [fullChain, List.headD_cons]
      rw [hU, hhead]
      have hgap : ∀ j, j + 1 < (fullChain inp b).length →
          ((applyGaps inp (fullChain inp b)).map (fun v => v % 2 ^ b)).getD
              ((fullChain inp b).getD j 0) 0 =
            (fullChain inp b).getD (j + 1) 0 - (fullChain inp b).getD j 0 - 1 := by
        intro j hj
        have hjmem : (fullChain inp b).getD j 0 < 128 := by
          have := hchain_lt _ (getD_mem_of_lt _ j (by omega))
          rwa [BlockSize] at this
        rw [getD_map_lt _ _ _ (by rw [hccF_len]; omega)]
        rw [applyGaps_getD_gap _ inp j hchain_pw hj (by rw [hl128]; omega)]
        have hR := chain'_getD _ _ hchainR j hj
        have hgaplt : (fullChain inp b).getD (j + 1) 0 - (fullChain inp b).getD j 0 - 1
            < 2 ^ b := by
          obtain ⟨h1, h2⟩ := hR
          generalize 2 ^ b = M at h2 ⊢
          omega
        exact Nat.mod_eq_of_lt hgaplt
      rw [chainWalk_spec inp (fullChain inp b) _ hchain_pw hgap]
      -- now a pointwise argument
      apply ext_getD
      · rw [foldl_set_length, List.length_map, hccF_len, hl128]
      · intro r hr
        rw [foldl_set_length, List.length_map, hccF_len] at hr
        rw [foldl_set_getD inp (fullChain inp b) _ r
          (fun p hp => by
            rw [List.length_map, hccF_len]
            have := hchain_lt p hp
            rwa [BlockSize] at this)]
        by_cases hrmem : r ∈ fullChain inp b
        · rw [if_pos hrmem]
        · rw [if_neg hrmem]
          rw [getD_map_lt _ _ _ (by rw [hccF_len]; omega)]
          rw [applyGaps_getD_not_mem _ inp r (fun p hp => by
            intro hEq
            exact hrmem (hEq ▸ hp))]
          have hrsmall : inp.getD r 0 < 2 ^ b := by
            by_contra hge
            have hrm : r ∈ missOf inp (2 ^ b) := by
              rw [missOf_mem, BlockSize]
              exact ⟨hr, by omega⟩
            exact hrmem (missOf_sub_fullChain inp b hmiss hrm)
          exact Nat.mod_eq_of_lt hrsmall

/-! ## Exception counts -/

lemma pairwise_lt_length_le (l : List ℕ) (n : ℕ) (hp : l.Pairwise (· < ·))
    (hb : ∀ x ∈ l, x < n) : l.length ≤ n := by
  have hnd : l.Nodup := hp.imp (fun h => Nat.ne_of_lt h)
  have hsub : l ⊆ List.range n := fun x hx => List.mem_range.mpr (hb x hx)
  have h2 := (hnd.subperm hsub).length_le
  simpa using h2

lemma missOf_mem_lt_length (inp : List ℕ) (maxgap x : ℕ) (hpos : 0 < maxgap)
    (hx : x ∈ missOf inp maxgap) : x < inp.length := by
  have h2 := ((missOf_mem inp maxgap x).mp hx).2
  by_contra hge
  rw [List.getD_eq_getElem?_getD, List.getElem?_eq_none (by omega)] at h2
  simp at h2
  omega

lemma fullChain_getLastD_mem (inp : List ℕ) (b : ℕ) (hmiss : missOf inp (2 ^ b) ≠ []) :
    (fullChain inp b).getLastD 0 ∈ missOf inp (2 ^ b) := by
  obtain ⟨m, t, hmt⟩ := List.exists_cons_of_ne_nil hmiss
  rcases t with - | ⟨r2, t2⟩
  · rw [fullChain, hmt]
    simp only [List.headD_cons, List.tail_cons, chainOf, List.getLastD_cons,
      List.getLastD_nil]
    exact List.mem_cons_self m []
  · rw [fullChain, hmt]
    simp only [List.headD_cons, List.tail_cons]
    rw [getLastD_chainOf b _ m (by simp)]
    exact List.mem_cons_of_mem m (getLastD_cons_mem t2 r2)

lemma fullChain_mem_lt_length (inp : List ℕ) (b : ℕ)
    (hmiss : missOf inp (2 ^ b) ≠ []) :
    ∀ x ∈ fullChain inp b, x < inp.length := by
  intro x hx
  have hle := mem_le_getLastD (fullChain inp b) x hx (fullChain_pairwise inp b hmiss)
  have hlast := missOf_mem_lt_length inp (2 ^ b) _ (pow_pos (by norm_num) b)
    (fullChain_getLastD_mem inp b hmiss)
  omega

/-- The exception values one block emits are the original values at a strictly
increasing list of in-block positions. -/
lemma compressblock_exceptions_chain (inp : List ℕ) (b : ℕ)
    (hl : inp.length ≤ BlockSize) :
    ∃ chain : List ℕ, chain.Pairwise (· < ·) ∧
      (∀ p ∈ chain, p < BlockSize ∧ p < inp.length) ∧
      (compressblockPFOR inp b).exceptions = chain.map (fun p => inp.getD p 0) := by
  by_cases hb32 : b = 32
  · refine ⟨[], List.Pairwise.nil, by simp, ?_⟩
    subst hb32
    rw [compressblockPFOR, if_pos rfl]
    rfl
  · by_cases hmiss : missOf inp (2 ^ b) = []
    · refine ⟨[], List.Pairwise.nil, by simp, ?_⟩
      rw [compressblockPFOR, if_neg hb32, if_pos hmiss]
      rfl
    · refine ⟨fullChain inp b, fullChain_pairwise inp b hmiss, ?_, ?_⟩
      · intro p hp
        exact ⟨fullChain_mem_lt inp b hmiss p hp, fullChain_mem_lt_length inp b hmiss p hp⟩
      · rw [compressblockPFOR, if_neg hb32, if_neg hmiss, patchBlock_spec inp b hl hmiss]

lemma compressblock_exceptions_le (inp : List ℕ) (b : ℕ)
    (hl : inp.length ≤ BlockSize) :
    (compressblockPFOR inp b).exceptions.length ≤ inp.length ∧
    (compressblockPFOR inp b).exceptions.length ≤ BlockSize := by
  obtain ⟨chain, hpw, hmem, hexc⟩ := compressblock_exceptions_chain inp b hl
  rw [hexc, List.length_map]
  constructor
  · exact pairwise_lt_length_le chain _ hpw (fun x hx => (hmem x hx).2)
  · exact pairwise_lt_length_le chain _ hpw (fun x hx => (hmem x hx).1)

/-! ## The first-exception return value -/

lemma compressblock_firstexcept_spec (inp : List ℕ) (b : ℕ)
    (hl : inp.length = BlockSize) (hv : ∀ v ∈ inp, v < 2 ^ 32) (hb : b ≤ 32) :
    ((compressblockPFOR inp b).firstexcept = BlockSize ∧
      ∀ k < BlockSize, inp.getD k 0 < 2 ^ b) ∨
    ((compressblockPFOR inp b).firstexcept < BlockSize ∧
      2 ^ b ≤ inp.getD ((compressblockPFOR inp b).firstexcept) 0 ∧
      ∀ j < (compressblockPFOR inp b).firstexcept, inp.getD j 0 < 2 ^ b) := by
  by_cases hb32 : b = 32
  · subst hb32
    left
    rw [compressblockPFOR, if_pos rfl]
    refine ⟨rfl, ?_⟩
    intro k hk
    have hk2 : k < inp.length := by rw [hl]; exact hk
    exact hv _ (getD_mem_of_lt inp k hk2)
  · by_cases hmiss : missOf inp (2 ^ b) = []
    · left
      rw [compressblockPFOR, if_neg hb32, if_pos hmiss]
      refine ⟨rfl, ?_⟩
      intro k hk
      by_contra hge
      have hkm : k ∈ missOf inp (2 ^ b) := by
        rw [missOf_mem]
        exact ⟨hk, by generalize 2 ^ b = M at hge ⊢; omega⟩
      rw [hmiss] at hkm
      exact absurd hkm (List.not_mem_nil k)
    · right
      rw [compressblockPFOR, if_neg hb32, if_neg hmiss]
      dsimp only
      obtain ⟨hhead, hleast⟩ := missOf_head_least inp (2 ^ b) hmiss
      obtain ⟨hh1, hh2⟩ := (missOf_mem inp (2 ^ b) _).mp hhead
      refine ⟨hh1, hh2, ?_⟩
      intro j hj
      by_contra hge
      have hjm : j ∈ missOf inp (2 ^ b) := by
        rw [missOf_mem, BlockSize]
        rw [BlockSize] at hh1
        exact ⟨by omega, by generalize 2 ^ b = M at hge ⊢; omega⟩
      exact hleast j hj hjm

/-! ## The chunk encoder `__encodeArray` (pfor.h lines 218–244) -/

/-- The per-block header word: `(firstexcept & firstexceptmask) |
(exceptindex << bitsforfirstexcept)` stored in a `uint32_t`.  The mask keeps
the low `blocksizeinbits = 8` bits (`x & (2^8 - 1) = x % 2^8`); the two
operands occupy disjoint bit ranges, so the bitwise-or is addition; the
store truncates to 32 bits. -/
def headerWord (firstexcept exceptindex : ℕ) : ℕ :=
  (firstexcept % 2 ^ blocksizeinbits + exceptindex * 2 ^ blocksizeinbits) % 2 ^ 32

/-- The per-block loop of `__encodeArray` (lines 228–239): for each block
write its header word followed by its packed words, and collect its
exception values; `excindex` is the running exception-list index. Returns
(header and packed words, collected exception values). -/
def encodeBlocks (b : ℕ) (inp : List ℕ) (excindex : ℕ) : List ℕ × List ℕ :=
  if h : inp = [] then ([], [])
  else
    let r := compressblockPFOR (inp.take BlockSize) b
    let excindex2 := excindex + r.exceptions.length
    let rest := encodeBlocks b (inp.drop BlockSize) excindex2
    (headerWord r.firstexcept excindex2 :: (r.packed ++ rest.1), r.exceptions ++ rest.2)
termination_by inp.length
decreasing_by
  have hp0 : 0 < inp.length := List.length_pos.mpr h
  simp only [List.length_drop, BlockSize]
  omega

/-! ## The bit-width selector `determineBestBase` (pfor.h lines 57–99)

`asmbits` comes from `util.h`, which is not under `src/`; modelled from the
spec: the number of bits needed to represent a value, 0 for 0, up to 32.
The `double` cost arithmetic of the source is modelled over `ℚ` (exact
rationals): the claims settled against it — the range of the returned width
and its independence from the random draw — do not depend on rounding.
The `rand()` draw (one per call) is passed in as the explicit argument
`rnd`. -/

/-- Modelled from the spec: `asmbits` = bit length of a 32-bit value. -/
def asmbits (x : ℕ) : ℕ := if x = 0 then 0 else Nat.log2 x + 1

/-- The histogram `freqs[j]`: how many sampled values have bit length `j`
(the sample is `in[rstart .. rstart + samplesize)`). -/
def freqsOf (inp : List ℕ) (rstart samplesize j : ℕ) : ℕ :=
  ((List.range samplesize).filter
    (fun k => decide (asmbits (inp.getD (rstart + k) 0) = j))).length

/-- One iteration of the width-selection loop (lines 77–97), for candidate
width `b`.  State: `(numberofexceptions, bestb, bestcost)`. -/
def costStep (freqs : ℕ → ℕ) (samplesize : ℕ) (st : ℕ × ℕ × ℚ) (b : ℕ) :
    ℕ × ℕ × ℚ :=
  let ne := st.1 + freqs (b + 1)
  let er : ℚ := (ne : ℚ) / (samplesize : ℚ)
  let er2 : ℚ :=
    if 0 < ne then
      (if er < (er * 128 - 1) / (er * 2 ^ b) then (er * 128 - 1) / (er * 2 ^ b) else er)
    else er
  let thiscost : ℚ := (b : ℚ) + er2 * 32
  if thiscost ≤ st.2.2 then (ne, b, thiscost) else (ne, st.2.1, st.2.2)

/-- `determineBestBase` (lines 57–99).  The loop
`for (uint32_t b = bestb - 1; b < 32; --b)` runs `b = 31, 30, ..., 0` and then
wraps around, so it is a fold over `[31, ..., 0]`; the initial state is
`numberofexceptions = 0`, `bestb = 32`, `bestcost = 32`. -/
def determineBestBase (inp : List ℕ) (size : ℕ) (rnd : ℕ) : ℕ :=
  if size = 0 then 0
  else
    let defaultsamplesize := 64 * 1024
    let samplesize := if size > defaultsamplesize then defaultsamplesize else size
    let rstart := if size > samplesize then rnd % (size - samplesize) else 0
    ((List.range 32).reverse.foldl (costStep (freqsOf inp rstart samplesize) samplesize)
      (0, 32, 32)).2.1

/-- Modelled from the spec: `checkifdivisibleby` (util.h, not under `src/`)
asserts that `n` is divisible by `d`; the assertion failure is modelled as
`none` in the callers. -/
def checkifdivisibleby (n d : ℕ) : Bool := n % d = 0

/-- The body of `__encodeArray` after the `checkifdivisibleby` check, for a
chosen width `b`: `[len][b]` followed by the blocks' headers and packed
words, followed by the chunk's exception values.  The length is stored into
a `uint32_t` output word. -/
def encodeChunkWithB (inp : List ℕ) (b : ℕ) : List ℕ :=
  inp.length % 2 ^ 32 :: b :: ((encodeBlocks b inp 0).1 ++ (encodeBlocks b inp 0).2)

/-- `__encodeArray` (pfor.h lines 218–244); the assertion of
`checkifdivisibleby(len, BlockSize)` is modelled as `none`. -/
def __encodeArray (inp : List ℕ) (rnd : ℕ) : Option (List ℕ) :=
  if checkifdivisibleby inp.length BlockSize then
    some (encodeChunkWithB inp (determineBestBase inp inp.length rnd))
  else none

/-! ## The chunk decoder `__decodeArray` (pfor.h lines 246–272) -/

/-- The per-block loop of `__decodeArray` (lines 258–268), for a given block
count.  `words` starts at the first block header; `excwords` is the chunk's
exception area (`initexcept`); `excpos` is the running exception index; the
cursor range `[except, endexceptpointer)` handed to `uncompressblockPFOR` is
the slice of `excwords` between `excpos` and the header's `exceptindex`.
Returns the decoded values and the final exception index
(`endexceptpointer - initexcept`). -/
def decodeBlocks (b : ℕ) (words excwords : List ℕ) (excpos : ℕ) :
    ℕ → List ℕ × ℕ
  | 0 => ([], excpos)
  | n + 1 =>
    let hdr := words.getD 0 0
    let firstexcept := hdr % 2 ^ blocksizeinbits
    let exceptindex := hdr / 2 ^ blocksizeinbits
    let blockexcs := (excwords.take exceptindex).drop excpos
    let outb := uncompressblockPFOR ((words.drop 1).take (BlockSize * b / 32)) b
      blockexcs firstexcept
    let rest := decodeBlocks b (words.drop (1 + BlockSize * b / 32)) excwords
      exceptindex n
    (outb ++ rest.1, rest.2)

/-- `__decodeArray` (pfor.h lines 246–272): read the chunk length and width,
locate the exception area at offset `2 + nvalue*b/32 + nvalue/BlockSize`,
decode the blocks, and return the decoded values together with the word
offset of the final `endexceptpointer` from the chunk start (the cursor the
function returns).  The `checkifdivisibleby(nvalue, BlockSize)` assertion is
modelled as `none`. -/
def __decodeArray (words : List ℕ) : Option (List ℕ × ℕ) :=
  let nvalue := words.getD 0 0
  if checkifdivisibleby nvalue BlockSize then
    let b := words.getD 1 0
    let r := decodeBlocks b (words.drop 2)
      (words.drop (2 + nvalue * b / 32 + nvalue / BlockSize)) 0 (nvalue / BlockSize)
    some (r.1, 2 + nvalue * b / 32 + nvalue / BlockSize + r.2)
  else none

/-! ## The array driver (pfor.h lines 171–216) -/

/-- `maxsize = 1 << (32 - blocksizeinbits - 1) = 2^23`, the chunk bound of
`encodeArray`. -/
def maxsize : ℕ := 2 ^ (32 - blocksizeinbits - 1)

/-- The chunk loop of `encodeArray` (lines 177–189): split the input into
chunks of at most `maxsize` values and encode each with `__encodeArray`.
`rnd i` models the `rand()` draw made while encoding chunk `i`. -/
def encodeChunks (rnd : ℕ → ℕ) (inp : List ℕ) (i : ℕ) : Option (List ℕ) :=
  if h : inp = [] then some []
  else
    let l := min maxsize inp.length
    match __encodeArray (inp.take l) (rnd i), encodeChunks rnd (inp.drop l) (i + 1) with
    | some w, some rest => some (w ++ rest)
    | _, _ => none
termination_by inp.length
decreasing_by
  have hp0 : 0 < inp.length := List.length_pos.mpr h
  have hm : 0 < maxsize := by norm_num [maxsize, blocksizeinbits]
  simp only [List.length_drop]
  omega

/-- `encodeArray` (lines 171–191): write the total length (stored into a
`uint32_t` word) and then the chunks. -/
def encodeArray (inp : List ℕ) (rnd : ℕ → ℕ) : Option (List ℕ) :=
  (encodeChunks rnd inp 0).map (fun ws => inp.length % 2 ^ 32 :: ws)

/-- The chunk loop of `decodeArray` (lines 200–210): decode chunks while the
recovered count is below the declared total.  A chunk declaring length `0`
would make the source loop scan forever past the buffer, and a chunk
declaring more than the remaining count fails the source's
`assert(totalnvalue <= nvalue)`; both are modelled as `none`.  Returns the
concatenated values and the number of words consumed. -/
def decodeChunks (words : List ℕ) (remaining : ℕ) : Option (List ℕ × ℕ) :=
  if remaining = 0 then some ([], 0)
  else
    let thisn := words.getD 0 0
    match __decodeArray words with
    | none => none
    | some r =>
      if h2 : 0 < thisn ∧ thisn ≤ remaining then
        match decodeChunks (words.drop r.2) (remaining - thisn) with
        | none => none
        | some rest => some (r.1 ++ rest.1, r.2 + rest.2)
      else none
termination_by remaining
decreasing_by omega

/-- `decodeArray` (lines 192–216): read the total length; if zero, return
after consuming exactly one word; otherwise decode chunks until the total is
reached.  Returns the recovered values and the number of words consumed (the
returned cursor's offset from the start of the input). -/
def decodeArray (words : List ℕ) : Option (List ℕ × ℕ) :=
  if words.getD 0 0 = 0 then some ([], 1)
  else
    match decodeChunks (words.drop 1) (words.getD 0 0) with
    | none => none
    | some r => some (r.1, 1 + r.2)

/-! ## Structural lemmas about the chunk encoder -/

lemma compressblock_packed_length (inp : List ℕ) (b : ℕ) (hl : inp.length = BlockSize)
    (hb : b ≤ 32) :
    (compressblockPFOR inp b).packed.length = BlockSize * b / 32 := by
  by_cases hb32 : b = 32
  · subst hb32
    rw [compressblockPFOR, if_pos rfl]
    dsimp only
    rw [List.length_take, hl]
    rw [BlockSize]
    omega
  · by_cases hmiss : missOf inp (2 ^ b) = []
    · rw [compressblockPFOR, if_neg hb32, if_pos hmiss]
      dsimp only
      rw [packblock_length, BlockSize]
      omega
    · rw [compressblockPFOR, if_neg hb32, if_neg hmiss]
      dsimp only
      rw [packblock_length, BlockSize]
      omega

lemma compressblock_firstexcept_le (inp : List ℕ) (b : ℕ) :
    (compressblockPFOR inp b).firstexcept ≤ BlockSize := by
  by_cases hb32 : b = 32
  · subst hb32
    rw [compressblockPFOR, if_pos rfl]
  · by_cases hmiss : missOf inp (2 ^ b) = []
    · rw [compressblockPFOR, if_neg hb32, if_pos hmiss]
    · rw [compressblockPFOR, if_neg hb32, if_neg hmiss]
      dsimp only
      have := ((missOf_mem inp (2 ^ b) _).mp (missOf_head_least inp (2 ^ b) hmiss).1).1
      omega

lemma headerWord_eq_add (f e : ℕ) (hf : f ≤ BlockSize) (he : e < 2 ^ 24) :
    headerWord f e = f + e * 2 ^ blocksizeinbits := by
  rw [headerWord, blocksizeinbits, BlockSize] at *
  norm_num at *
  omega

lemma headerWord_fields (f e : ℕ) (hf : f ≤ BlockSize) (he : e < 2 ^ 24) :
    headerWord f e % 2 ^ blocksizeinbits = f ∧
    headerWord f e / 2 ^ blocksizeinbits = e := by
  rw [headerWord_eq_add f e hf he, blocksizeinbits, BlockSize] at *
  norm_num at *
  omega

lemma encodeBlocks_nil (b e : ℕ) : encodeBlocks b [] e = ([], []) := by
  rw [encodeBlocks]
  simp

lemma encodeBlocks_ne (b : ℕ) (inp : List ℕ) (e : ℕ) (h : inp ≠ []) :
    encodeBlocks b inp e =
      (headerWord (compressblockPFOR (inp.take BlockSize) b).firstexcept
          (e + (compressblockPFOR (inp.take BlockSize) b).exceptions.length) ::
        ((compressblockPFOR (inp.take BlockSize) b).packed ++
          (encodeBlocks b (inp.drop BlockSize)
            (e + (compressblockPFOR (inp.take BlockSize) b).exceptions.length)).1),
       (compressblockPFOR (inp.take BlockSize) b).exceptions ++
        (encodeBlocks b (inp.drop BlockSize)
          (e + (compressblockPFOR (inp.take BlockSize) b).exceptions.length)).2) := by
  rw [encodeBlocks, dif_neg h]

lemma encodeBlocks_words_length (b : ℕ) (hb : b ≤ 32) : ∀ (m : ℕ) (inp : List ℕ) (e : ℕ),
    inp.length = BlockSize * m →
    (encodeBlocks b inp e).1.length = m * (1 + BlockSize * b / 32) := by
  intro m
  induction m with
  | zero =>
    intro inp e hlen
    have : inp = [] := List.length_eq_zero.mp (by rw [hlen]; ring)
    subst this
    rw [encodeBlocks_nil]
    simp
  | succ m ih =>
    intro inp e hlen
    have hne : inp ≠ [] := by
      intro hnil
      rw [hnil] at hlen
      simp [BlockSize] at hlen
    have htl : (inp.take BlockSize).length = BlockSize := by
      rw [List.length_take, hlen, BlockSize]
      simp [Nat.mul_succ]
    have hdl : (inp.drop BlockSize).length = BlockSize * m := by
      rw [List.length_drop, hlen, BlockSize]
      rw [BlockSize] at *
      omega
    rw [encodeBlocks_ne b inp e hne]
    simp only [List.length_cons, List.length_append]
    rw [compressblock_packed_length _ b htl hb, ih _ _ hdl]
    ring

lemma encodeBlocks_exc_length_le (b : ℕ) : ∀ (n : ℕ) (inp : List ℕ) (e : ℕ),
    inp.length ≤ n → (encodeBlocks b inp e).2.length ≤ inp.length := by
  intro n
  induction n with
  | zero =>
    intro inp e hlen
    have : inp = [] := List.length_eq_zero.mp (by omega)
    subst this
    rw [encodeBlocks_nil]
  | succ n ih =>
    intro inp e hlen
    by_cases hne : inp = []
    · subst hne
      rw [encodeBlocks_nil]
    · rw [encodeBlocks_ne b inp e hne]
      simp only [List.length_append]
      have htk : (inp.take BlockSize).length ≤ BlockSize := by
        rw [List.length_take]
        omega
      have h1 := (compressblock_exceptions_le (inp.take BlockSize) b htk).1
      have h2 := ih (inp.drop BlockSize)
        (e + (compressblockPFOR (inp.take BlockSize) b).exceptions.length)
        (by have hbs : BlockSize = 128 := rfl; rw [List.length_drop]; omega)
      have htk2 : (inp.take BlockSize).length = min BlockSize inp.length :=
        List.length_take BlockSize inp
      have hdk : (inp.drop BlockSize).length = inp.length - BlockSize :=
        List.length_drop BlockSize inp
      omega

/-! ## The cumulative exception count through the first `k` blocks -/

/-- The number of exception values emitted by blocks `0 .. k-1` of a chunk. -/
def cumExc (b : ℕ) (inp : List ℕ) : ℕ → ℕ
  | 0 => 0
  | k + 1 => cumExc b inp k +
      (compressblockPFOR ((inp.drop (BlockSize * k)).take BlockSize) b).exceptions.length

lemma cumExc_shift (b : ℕ) (inp : List ℕ) : ∀ k : ℕ,
    cumExc b inp (k + 1) =
      (compressblockPFOR (inp.take BlockSize) b).exceptions.length +
        cumExc b (inp.drop BlockSize) k := by
  intro k
  induction k with
  | zero =>
    rw [cumExc, cumExc, cumExc]
    simp
  | succ k ih =>
    rw [cumExc, ih, cumExc]
    have harith : BlockSize * (k + 1) = BlockSize + BlockSize * k := by ring
    rw [harith, ← List.drop_drop]
    ring

lemma encodeBlocks_exc_eq_cumExc (b : ℕ) : ∀ (m : ℕ) (inp : List ℕ) (e : ℕ),
    inp.length = BlockSize * m →
    (encodeBlocks b inp e).2.length = cumExc b inp m := by
  intro m
  induction m with
  | zero =>
    intro inp e hlen
    have : inp = [] := List.length_eq_zero.mp (by rw [hlen]; ring)
    subst this
    rw [encodeBlocks_nil, cumExc]
    rfl
  | succ m ih =>
    intro inp e hlen
    have hne : inp ≠ [] := by
      intro hnil
      rw [hnil] at hlen
      simp [BlockSize] at hlen
    have hdl : (inp.drop BlockSize).length = BlockSize * m := by
      rw [List.length_drop, hlen, BlockSize]
      rw [BlockSize] at *
      omega
    rw [encodeBlocks_ne b inp e hne, cumExc_shift]
    simp only [List.length_append]
    rw [ih _ _ hdl]

/-- The word at index `k * (1 + BlockSize*b/32)` of the block area is block
`k`'s header. -/
lemma encodeBlocks_header_getD (b : ℕ) (hb : b ≤ 32) :
    ∀ (k m : ℕ) (inp : List ℕ) (e : ℕ),
    inp.length = BlockSize * m → k < m →
    (encodeBlocks b inp e).1.getD (k * (1 + BlockSize * b / 32)) 0 =
      headerWord
        (compressblockPFOR ((inp.drop (BlockSize * k)).take BlockSize) b).firstexcept
        (e + cumExc b inp (k + 1)) := by
  intro k
  induction k with
  | zero =>
    intro m inp e hlen hk
    have hne : inp ≠ [] := by
      intro hnil
      rw [hnil] at hlen
      rw [BlockSize] at hlen
      simp at hlen
      omega
    have hc1 : cumExc b inp (0 + 1) =
        (compressblockPFOR (inp.take BlockSize) b).exceptions.length := by
      rw [Nat.zero_add, cumExc_shift, cumExc]
      omega
    rw [encodeBlocks_ne b inp e hne, Nat.zero_mul, List.getD_cons_zero, Nat.mul_zero,
      List.drop_zero, hc1]
  | succ k ih =>
    intro m inp e hlen hk
    rcases m with - | m2
    · omega
    have hne : inp ≠ [] := by
      intro hnil
      rw [hnil] at hlen
      rw [BlockSize] at hlen
      simp at hlen
    have htl : (inp.take BlockSize).length = BlockSize := by
      rw [List.length_take, hlen, BlockSize]
      simp [Nat.mul_succ]
    have hdl : (inp.drop BlockSize).length = BlockSize * m2 := by
      rw [List.length_drop, hlen, BlockSize]
      rw [BlockSize] at *
      omega
    rw [encodeBlocks_ne b inp e hne]
    have hQ : (k + 1) * (1 + BlockSize * b / 32) =
        (BlockSize * b / 32 + k * (1 + BlockSize * b / 32)) + 1 := by ring
    rw [hQ, List.getD_cons_succ]
    have hplen : (compressblockPFOR (inp.take BlockSize) b).packed.length =
        BlockSize * b / 32 := compressblock_packed_length _ b htl hb
    rw [getD_append_right _ _ _ (by rw [hplen]; omega)]
    rw [hplen, Nat.add_sub_cancel_left]
    rw [ih m2 (inp.drop BlockSize) _ hdl (by omega)]
    have hblk : ((inp.drop BlockSize).drop (BlockSize * k)).take BlockSize =
        (inp.drop (BlockSize * (k + 1))).take BlockSize := by
      rw [List.drop_drop]
      have : BlockSize + BlockSize * k = BlockSize * (k + 1) := by ring
      rw [this]
    rw [hblk]
    have hcum : e + (compressblockPFOR (inp.take BlockSize) b).exceptions.length +
        cumExc b (inp.drop BlockSize) (k + 1) = e + cumExc b inp (k + 1 + 1) := by
      rw [cumExc_shift b inp (k + 1)]
      ring
    rw [hcum]

/-! ## Round trip for the block area of a chunk -/

lemma decodeBlocks_zero (b : ℕ) (w ex : List ℕ) (p : ℕ) :
    decodeBlocks b w ex p 0 = ([], p) := rfl

lemma decodeBlocks_succ (b : ℕ) (w ex : List ℕ) (p n : ℕ) :
    decodeBlocks b w ex p (n + 1) =
      ((uncompressblockPFOR ((w.drop 1).take (BlockSize * b / 32)) b
          ((ex.take (w.getD 0 0 / 2 ^ blocksizeinbits)).drop p)
          (w.getD 0 0 % 2 ^ blocksizeinbits)) ++
        (decodeBlocks b (w.drop (1 + BlockSize * b / 32)) ex
          (w.getD 0 0 / 2 ^ blocksizeinbits) n).1,
       (decodeBlocks b (w.drop (1 + BlockSize * b / 32)) ex
          (w.getD 0 0 / 2 ^ blocksizeinbits) n).2) := rfl

/-- Decoding one block-area step on input of the shape the encoder produces. -/
lemma decodeBlocks_step (b : ℕ) (fe e1 : ℕ) (pk w1 exc E suffix : List ℕ) (e0 m : ℕ)
    (hfe : fe ≤ BlockSize) (he1 : e1 < 2 ^ 24)
    (hpk : pk.length = BlockSize * b / 32)
    (hE : (E.take e1).drop e0 = exc) :
    decodeBlocks b ((headerWord fe e1 :: (pk ++ w1)) ++ suffix) E e0 (m + 1) =
      (uncompressblockPFOR pk b exc fe ++
        (decodeBlocks b (w1 ++ suffix) E e1 m).1,
       (decodeBlocks b (w1 ++ suffix) E e1 m).2) := by
  rw [decodeBlocks_succ]
  have h0 : ((headerWord fe e1 :: (pk ++ w1)) ++ suffix).getD 0 0 = headerWord fe e1 := by
    rw [List.cons_append, List.getD_cons_zero]
  obtain ⟨hmod, hdiv⟩ := headerWord_fields fe e1 hfe he1
  rw [h0, hmod, hdiv]
  have h1 : ((headerWord fe e1 :: (pk ++ w1)) ++ suffix).drop 1 =
      pk ++ (w1 ++ suffix) := by
    rw [List.cons_append, List.drop_one, List.tail_cons, List.append_assoc]
  have h2 : ((headerWord fe e1 :: (pk ++ w1)) ++ suffix).drop (1 + BlockSize * b / 32) =
      w1 ++ suffix := by
    rw [List.cons_append, Nat.add_comm 1 (BlockSize * b / 32), List.drop_succ_cons,
      List.append_assoc]
    exact drop_append_of_length _ _ _ hpk
  rw [h1, take_append_of_length _ _ _ hpk, h2, hE]

lemma decodeBlocks_encodeBlocks (b : ℕ) (hb : b ≤ 32) :
    ∀ (m : ℕ) (inp : List ℕ) (e0 : ℕ) (pre post suffix : List ℕ),
    inp.length = BlockSize * m → (∀ v ∈ inp, v < 2 ^ 32) →
    pre.length = e0 → e0 + (encodeBlocks b inp e0).2.length < 2 ^ 24 →
    decodeBlocks b ((encodeBlocks b inp e0).1 ++ suffix)
        (pre ++ ((encodeBlocks b inp e0).2 ++ post)) e0 m =
      (inp, e0 + (encodeBlocks b inp e0).2.length) := by
  intro m
  induction m with
  | zero =>
    intro inp e0 pre post suffix hlen hv hpre hbound
    have hnil : inp = [] := List.length_eq_zero.mp (by rw [hlen]; ring)
    subst hnil
    rw [encodeBlocks_nil, decodeBlocks_zero]
    simp
  | succ m ih =>
    intro inp e0 pre post suffix hlen hv hpre hbound
    have hne : inp ≠ [] := by
      intro hnil
      rw [hnil] at hlen
      rw [BlockSize] at hlen
      simp at hlen
    have htl : (inp.take BlockSize).length = BlockSize := by
      rw [List.length_take, hlen, BlockSize]
      simp [Nat.mul_succ]
    have hdl : (inp.drop BlockSize).length = BlockSize * m := by
      rw [List.length_drop, hlen, BlockSize]
      rw [BlockSize] at *
      omega
    have henc := encodeBlocks_ne b inp e0 hne
    have hn0 : (encodeBlocks b inp e0).2.length =
        (compressblockPFOR (inp.take BlockSize) b).exceptions.length +
          (encodeBlocks b (inp.drop BlockSize)
            (e0 + (compressblockPFOR (inp.take BlockSize) b).exceptions.length)).2.length := by
      rw [henc, List.length_append]
    have hplen : (compressblockPFOR (inp.take BlockSize) b).packed.length =
        BlockSize * b / 32 := compressblock_packed_length _ b htl hb
    have hfe : (compressblockPFOR (inp.take BlockSize) b).firstexcept ≤ BlockSize :=
      compressblock_firstexcept_le _ b
    have he1lt : e0 + (compressblockPFOR (inp.take BlockSize) b).exceptions.length
        < 2 ^ 24 := by omega
    have hslice2 : ((pre ++ (((compressblockPFOR (inp.take BlockSize) b).exceptions ++
          (encodeBlocks b (inp.drop BlockSize)
            (e0 + (compressblockPFOR (inp.take BlockSize) b).exceptions.length)).2) ++
          post)).take
          (e0 + (compressblockPFOR (inp.take BlockSize) b).exceptions.length)).drop e0 =
        (compressblockPFOR (inp.take BlockSize) b).exceptions := by
      have h3 : e0 + (compressblockPFOR (inp.take BlockSize) b).exceptions.length =
          pre.length + (compressblockPFOR (inp.take BlockSize) b).exceptions.length := by
        rw [hpre]
      rw [h3, List.take_append, List.append_assoc,
        take_append_of_length _ _ _ rfl]
      exact drop_append_of_length _ _ _ hpre
    rw [henc]
    rw [decodeBlocks_step b _ _ _ _ _ _ suffix e0 m hfe he1lt hplen hslice2]
    have hv' : ∀ v ∈ inp.take BlockSize, v < 2 ^ 32 :=
      fun v hv2 => hv v (List.take_subset _ _ hv2)
    rw [block_roundtrip (inp.take BlockSize) b htl hv' hb]
    have ihinst := ih (inp.drop BlockSize)
      (e0 + (compressblockPFOR (inp.take BlockSize) b).exceptions.length)
      (pre ++ (compressblockPFOR (inp.take BlockSize) b).exceptions) post suffix hdl
      (fun v hv2 => hv v (List.drop_subset _ _ hv2))
      (by rw [List.length_append, hpre])
      (by omega)
    simp only [List.append_assoc] at ihinst ⊢
    rw [ihinst, Prod.mk.injEq]
    constructor
    · exact List.take_append_drop BlockSize inp
    · simp only [List.length_append]
      omega

/-! ## Round trip for one chunk -/

lemma __decodeArray_eq (words : List ℕ) (h : words.getD 0 0 % BlockSize = 0) :
    __decodeArray words =
      some ((decodeBlocks (words.getD 1 0) (words.drop 2)
          (words.drop (2 + words.getD 0 0 * words.getD 1 0 / 32 +
            words.getD 0 0 / BlockSize)) 0 (words.getD 0 0 / BlockSize)).1,
        2 + words.getD 0 0 * words.getD 1 0 / 32 + words.getD 0 0 / BlockSize +
          (decodeBlocks (words.getD 1 0) (words.drop 2)
            (words.drop (2 + words.getD 0 0 * words.getD 1 0 / 32 +
              words.getD 0 0 / BlockSize)) 0 (words.getD 0 0 / BlockSize)).2) := by
  rw [__decodeArray]
  rw [if_pos (by simp only [checkifdivisibleby, decide_eq_true_eq]; exact h)]

lemma __decodeArray_none (words : List ℕ) (h : words.getD 0 0 % BlockSize ≠ 0) :
    __decodeArray words = none := by
  rw [__decodeArray]
  rw [if_neg (by simp only [checkifdivisibleby, decide_eq_true_eq]; exact h)]

lemma chunk_roundtrip (inp : List ℕ) (b : ℕ) (suffix : List ℕ)
    (hmul : inp.length % BlockSize = 0) (hlen : inp.length ≤ maxsize)
    (hv : ∀ v ∈ inp, v < 2 ^ 32) (hb : b ≤ 32) :
    __decodeArray (encodeChunkWithB inp b ++ suffix) =
      some (inp, (encodeChunkWithB inp b).length) := by
  have hmax : maxsize = 2 ^ 23 := by norm_num [maxsize, blocksizeinbits]
  have hlen32 : inp.length % 2 ^ 32 = inp.length := by
    apply Nat.mod_eq_of_lt
    rw [hmax] at hlen
    omega
  have hm : inp.length = BlockSize * (inp.length / BlockSize) :=
    (Nat.mul_div_cancel' (Nat.dvd_of_mod_eq_zero hmul)).symm
  have hwords : encodeChunkWithB inp b ++ suffix =
      inp.length % 2 ^ 32 :: b ::
        (((encodeBlocks b inp 0).1 ++ (encodeBlocks b inp 0).2) ++ suffix) := by
    rw [encodeChunkWithB, List.cons_append, List.cons_append]
  have hw0 : (encodeChunkWithB inp b ++ suffix).getD 0 0 = inp.length := by
    rw [hwords, List.getD_cons_zero, hlen32]
  have hw1 : (encodeChunkWithB inp b ++ suffix).getD 1 0 = b := by
    rw [hwords]
    rfl
  have hdrop2 : (encodeChunkWithB inp b ++ suffix).drop 2 =
      ((encodeBlocks b inp 0).1 ++ (encodeBlocks b inp 0).2) ++ suffix := by
    rw [hwords]
    rfl
  have hbodylen : (encodeBlocks b inp 0).1.length =
      (inp.length / BlockSize) * (1 + BlockSize * b / 32) :=
    encodeBlocks_words_length b hb (inp.length / BlockSize) inp 0 hm
  have hexcle : (encodeBlocks b inp 0).2.length ≤ inp.length :=
    encodeBlocks_exc_length_le b inp.length inp 0 le_rfl
  have h4b : BlockSize * b / 32 = 4 * b := by rw [BlockSize]; omega
  have hlb : inp.length * b / 32 = (inp.length / BlockSize) * (4 * b) := by
    conv_lhs => rw [hm]
    rw [BlockSize]
    have h5 : 128 * (inp.length / 128) * b = ((inp.length / 128) * (4 * b)) * 32 := by
      ring
    rw [h5, Nat.mul_div_cancel _ (by norm_num)]
  have hexcstart : 2 + inp.length * b / 32 + inp.length / BlockSize =
      2 + (encodeBlocks b inp 0).1.length := by
    rw [hlb, hbodylen, h4b]
    ring
  have hdropstart : (encodeChunkWithB inp b ++ suffix).drop
      (2 + inp.length * b / 32 + inp.length / BlockSize) =
      (encodeBlocks b inp 0).2 ++ suffix := by
    rw [hexcstart, ← List.drop_drop, hdrop2, List.append_assoc]
    exact drop_append_of_length _ _ _ rfl
  rw [__decodeArray_eq _ (by rw [hw0]; exact hmul)]
  rw [hw0, hw1, hdrop2, hdropstart]
  have hdec := decodeBlocks_encodeBlocks b hb (inp.length / BlockSize) inp 0 [] suffix
    ((encodeBlocks b inp 0).2 ++ suffix) hm hv rfl
    (by
      rw [hmax] at hlen
      omega)
  simp only [List.nil_append, List.append_assoc] at hdec
  simp only [List.append_assoc]
  rw [hdec]
  have hchunklen : (encodeChunkWithB inp b).length =
      2 + ((encodeBlocks b inp 0).1.length + (encodeBlocks b inp 0).2.length) := by
    rw [encodeChunkWithB]
    simp [List.length_append]
    omega
  simp only [Option.some.injEq, Prod.mk.injEq]
  constructor
  · trivial
  · rw [hchunklen, hexcstart]
    omega

/-! ## Range of `determineBestBase` -/

lemma costStep_bestb (freqs : ℕ → ℕ) (samplesize : ℕ) (st : ℕ × ℕ × ℚ) (x : ℕ) :
    (costStep freqs samplesize st x).2.1 = x ∨
    (costStep freqs samplesize st x).2.1 = st.2.1 := by
  rw [costStep]
  split
  · split
    · split
      · left; rfl
      · right; rfl
    · split
      · left; rfl
      · right; rfl
  · split
    · left; rfl
    · right; rfl

lemma foldl_costStep_le (freqs : ℕ → ℕ) (samplesize : ℕ) : ∀ (l : List ℕ)
    (st : ℕ × ℕ × ℚ), st.2.1 ≤ 32 → (∀ x ∈ l, x ≤ 32) →
    (l.foldl (costStep freqs samplesize) st).2.1 ≤ 32 := by
  intro l
  induction l with
  | nil => intro st hst _; exact hst
  | cons x l ih =>
    intro st hst hl
    rw [List.foldl_cons]
    apply ih
    · rcases costStep_bestb freqs samplesize st x with h | h
      · rw [h]; exact hl x (List.mem_cons_self x l)
      · rw [h]; exact hst
    · exact fun y hy => hl y (List.mem_cons_of_mem x hy)

lemma determineBestBase_le (inp : List ℕ) (size rnd : ℕ) :
    determineBestBase inp size rnd ≤ 32 := by
  rw [determineBestBase]
  split
  · omega
  · apply foldl_costStep_le
    · norm_num
    · intro x hx
      rw [List.mem_reverse, List.mem_range] at hx
      omega

/-! ## Round trip for the array driver -/

lemma __encodeArray_some (inp : List ℕ) (rnd : ℕ) (h : inp.length % BlockSize = 0) :
    __encodeArray inp rnd =
      some (encodeChunkWithB inp (determineBestBase inp inp.length rnd)) := by
  rw [__encodeArray]
  rw [if_pos (by simp only [checkifdivisibleby, decide_eq_true_eq]; exact h)]

lemma __encodeArray_none (inp : List ℕ) (rnd : ℕ) (h : inp.length % BlockSize ≠ 0) :
    __encodeArray inp rnd = none := by
  rw [__encodeArray]
  rw [if_neg (by simp only [checkifdivisibleby, decide_eq_true_eq]; exact h)]

lemma maxsize_mod : maxsize % BlockSize = 0 := by
  norm_num [maxsize, blocksizeinbits, BlockSize]

lemma encodeChunkWithB_getD0 (inp : List ℕ) (b : ℕ) (h : inp.length < 2 ^ 32) :
    (encodeChunkWithB inp b).getD 0 0 = inp.length := by
  rw [encodeChunkWithB, List.getD_cons_zero]
  exact Nat.mod_eq_of_lt h

lemma encodeChunks_decodeChunks (rnd : ℕ → ℕ) : ∀ (n : ℕ) (inp : List ℕ) (i : ℕ),
    inp.length ≤ n → inp.length % BlockSize = 0 → (∀ v ∈ inp, v < 2 ^ 32) →
    ∃ ws, encodeChunks rnd inp i = some ws ∧
      ∀ suffix, decodeChunks (ws ++ suffix) inp.length = some (inp, ws.length) := by
  intro n
  induction n with
  | zero =>
    intro inp i hn _ _
    have hnil : inp = [] := List.length_eq_zero.mp (by omega)
    subst hnil
    refine ⟨[], ?_, ?_⟩
    · rw [encodeChunks]
      simp
    · intro suffix
      rw [decodeChunks]
      simp
  | succ n ih =>
    intro inp i hn hmod hv
    by_cases hne : inp = []
    · subst hne
      refine ⟨[], ?_, ?_⟩
      · rw [encodeChunks]
        simp
      · intro suffix
        rw [decodeChunks]
        simp
    · have hmax : maxsize = 2 ^ 23 := by norm_num [maxsize, blocksizeinbits]
      have hp0 : 0 < inp.length := List.length_pos.mpr hne
      have hBS : BlockSize = 128 := rfl
      have hlenpos : BlockSize ≤ inp.length := by
        rcases Nat.lt_or_ge inp.length BlockSize with h | h
        · exfalso
          rw [Nat.mod_eq_of_lt h] at hmod
          omega
        · exact h
      have hlmod : min maxsize inp.length % BlockSize = 0 := by
        rcases Nat.le_total maxsize inp.length with h | h
        · rw [min_eq_left h]
          exact maxsize_mod
        · rw [min_eq_right h]
          exact hmod
      have hl1 : 0 < min maxsize inp.length := by
        rw [hmax] at *
        omega
      have hlle : min maxsize inp.length ≤ maxsize := min_le_left _ _
      have htla : (inp.take (min maxsize inp.length)).length = min maxsize inp.length := by
        rw [List.length_take]
        omega
      have htlmod : (inp.take (min maxsize inp.length)).length % BlockSize = 0 := by
        rw [htla]
        exact hlmod
      have hbsel := determineBestBase_le (inp.take (min maxsize inp.length))
        (inp.take (min maxsize inp.length)).length (rnd i)
      have henc := __encodeArray_some (inp.take (min maxsize inp.length)) (rnd i) htlmod
      have hvt : ∀ v ∈ inp.take (min maxsize inp.length), v < 2 ^ 32 :=
        fun v hv2 => hv v (List.take_subset _ _ hv2)
      have hchunk := fun suffix => chunk_roundtrip (inp.take (min maxsize inp.length))
        (determineBestBase (inp.take (min maxsize inp.length))
          (inp.take (min maxsize inp.length)).length (rnd i)) suffix
        htlmod (by rw [htla]; exact hlle) hvt hbsel
      obtain ⟨restws, hrest, hrestdec⟩ := ih (inp.drop (min maxsize inp.length)) (i + 1)
        (by rw [List.length_drop]; omega)
        (by rw [List.length_drop, hBS]
            rw [hBS] at hmod hlmod
            omega)
        (fun v hv2 => hv v (List.drop_subset _ _ hv2))
      refine ⟨encodeChunkWithB (inp.take (min maxsize inp.length))
        (determineBestBase (inp.take (min maxsize inp.length))
          (inp.take (min maxsize inp.length)).length (rnd i)) ++ restws, ?_, ?_⟩
      · rw [encodeChunks, dif_neg hne]
        dsimp only
        rw [henc, hrest]
      · intro suffix
        rw [decodeChunks]
        rw [if_neg (by omega)]
        dsimp only
        rw [List.append_assoc]
        have hgd0 : (encodeChunkWithB (inp.take (min maxsize inp.length))
            (determineBestBase (inp.take (min maxsize inp.length))
              (inp.take (min maxsize inp.length)).length (rnd i)) ++
              (restws ++ suffix)).getD 0 0 = min maxsize inp.length := by
          rw [encodeChunkWithB, List.cons_append, List.getD_cons_zero, htla]
          apply Nat.mod_eq_of_lt
          rw [hmax] at *
          omega
        rw [hgd0]
        rw [hchunk (restws ++ suffix)]
        dsimp only
        rw [dif_pos ⟨hl1, by omega⟩]
        have hdrop : (encodeChunkWithB (inp.take (min maxsize inp.length))
            (determineBestBase (inp.take (min maxsize inp.length))
              (inp.take (min maxsize inp.length)).length (rnd i)) ++
              (restws ++ suffix)).drop
            (encodeChunkWithB (inp.take (min maxsize inp.length))
              (determineBestBase (inp.take (min maxsize inp.length))
                (inp.take (min maxsize inp.length)).length (rnd i))).length =
            restws ++ suffix :=
          drop_append_of_length _ _ _ rfl
        rw [hdrop]
        have hremain : inp.length - min maxsize inp.length =
            (inp.drop (min maxsize inp.length)).length := by
          rw [List.length_drop]
        rw [hremain, hrestdec suffix, htla]
        simp only [Option.some.injEq, Prod.mk.injEq, List.length_append]
        constructor
        · exact List.take_append_drop _ inp
        · trivial

/-! ## Failure of the divisibility precondition -/

lemma encodeChunks_none (rnd : ℕ → ℕ) : ∀ (n : ℕ) (inp : List ℕ) (i : ℕ),
    inp.length ≤ n → inp.length % BlockSize ≠ 0 → encodeChunks rnd inp i = none := by
  intro n
  induction n with
  | zero =>
    intro inp i hn hmod
    have h0 : inp.length = 0 := by omega
    rw [h0] at hmod
    simp at hmod
  | succ n ih =>
    intro inp i hn hmod
    have hne : inp ≠ [] := by
      intro h
      rw [h] at hmod
      simp at hmod
    have hBS : BlockSize = 128 := rfl
    have hmax : maxsize = 2 ^ 23 := by norm_num [maxsize, blocksizeinbits]
    rw [encodeChunks, dif_neg hne]
    dsimp only
    by_cases hcase : maxsize ≤ inp.length
    · have hl : min maxsize inp.length = maxsize := min_eq_left hcase
      have htk : (inp.take (min maxsize inp.length)).length % BlockSize = 0 := by
        rw [List.length_take, hl, hBS]
        rw [hBS] at *
        have hm2 : maxsize % 128 = 0 := by rw [hmax]; norm_num
        omega
      have hdropne : (inp.drop (min maxsize inp.length)).length % BlockSize ≠ 0 := by
        rw [List.length_drop, hl, hBS]
        rw [hBS] at hmod
        have hm2 : maxsize % 128 = 0 := by rw [hmax]; norm_num
        omega
      rw [__encodeArray_some _ _ htk,
        ih (inp.drop (min maxsize inp.length)) (i + 1)
          (by rw [List.length_drop]; rw [hmax] at *; omega) hdropne]
    · have hl : min maxsize inp.length = inp.length :=
        min_eq_right (le_of_not_le hcase)
      have htk : (inp.take (min maxsize inp.length)).length % BlockSize ≠ 0 := by
        rw [List.length_take, hl]
        simpa using hmod
      rw [__encodeArray_none _ _ htk]

/-! ## Remaining helpers for the claim theorems -/

lemma mem_ne_getLastD_index (l : List ℕ) : ∀ x ∈ l, x ≠ l.getLastD 0 →
    ∃ j, j + 1 < l.length ∧ l.getD j 0 = x := by
  induction l with
  | nil => intro x hx; cases hx
  | cons a l ih =>
    intro x hx hne
    rcases l with - | ⟨c, l2⟩
    · rcases List.mem_cons.mp hx with h | h
      · exfalso
        apply hne
        rw [h]
        rfl
      · cases h
    · rcases List.mem_cons.mp hx with h | h
      · exact ⟨0, by simp, by rw [List.getD_cons_zero, h]⟩
      · have hgl : (a :: c :: l2).getLastD 0 = (c :: l2).getLastD 0 := by
          rw [List.getLastD_cons, getLastD_cons_irrel c l2 a 0]
        rw [hgl] at hne
        obtain ⟨j, hj, hjx⟩ := ih x h hne
        refine ⟨j + 1, ?_, ?_⟩
        · simp only [List.length_cons] at hj ⊢
          omega
        · rw [List.getD_cons_succ, hjx]

lemma cumExc_mono (b : ℕ) (inp : List ℕ) : ∀ j m, j ≤ m →
    cumExc b inp j ≤ cumExc b inp m := by
  intro j m h
  induction m with
  | zero =>
    have : j = 0 := by omega
    subst this
    exact le_rfl
  | succ m ih =>
    rcases Nat.eq_or_lt_of_le h with h2 | h2
    · subst h2
      exact le_rfl
    · have h3 := ih (by omega)
      rw [cumExc]
      omega

/-! # The claims -/

/-- **C1**: for every non-empty array of 32-bit values whose length is a
multiple of `BlockSize = 128`, `decodeArray` applied to the output of
`encodeArray` reconstructs the original array element-wise (and consumes
exactly the produced words, so it reports exactly the original number of
values).  `rnd` supplies the `rand()` draws of the width selector; the
round trip holds for every draw. -/
theorem claim_c1 (inp : List ℕ) (rnd : ℕ → ℕ) (hne : inp ≠ [])
    (hmod : inp.length % BlockSize = 0) (hlen : inp.length < 2 ^ 32)
    (hv : ∀ v ∈ inp, v < 2 ^ 32) :
    ∃ ws, encodeArray inp rnd = some ws ∧ decodeArray ws = some (inp, ws.length) := by
  obtain ⟨ws0, henc, hdec⟩ := encodeChunks_decodeChunks rnd inp.length inp 0 le_rfl hmod hv
  have hmodid : inp.length % 2 ^ 32 = inp.length := Nat.mod_eq_of_lt hlen
  have hpos : 0 < inp.length := List.length_pos.mpr hne
  refine ⟨inp.length % 2 ^ 32 :: ws0, ?_, ?_⟩
  · rw [encodeArray, henc]
    rfl
  · rw [decodeArray]
    have hg0 : (inp.length % 2 ^ 32 :: ws0).getD 0 0 = inp.length := by
      rw [List.getD_cons_zero, hmodid]
    rw [hg0, if_neg (by omega)]
    have hdrop : (inp.length % 2 ^ 32 :: ws0).drop 1 = ws0 := rfl
    rw [hdrop]
    have hd := hdec []
    rw [List.append_nil] at hd
    rw [hd]
    simp only [List.length_cons, Option.some.injEq, Prod.mk.injEq]
    exact ⟨trivial, by omega⟩

/-- A concrete instance of C1: a 128-value array containing an outlier
round-trips through the driver. -/
theorem claim_c1_witness :
    ((4000000000 :: List.replicate 127 1) ≠ [] ∧
      (4000000000 :: List.replicate 127 1).length % BlockSize = 0 ∧
      (4000000000 :: List.replicate 127 1).length < 2 ^ 32 ∧
      (∀ v ∈ (4000000000 :: List.replicate 127 1), v < 2 ^ 32)) ∧
    ∃ ws, encodeArray (4000000000 :: List.replicate 127 1) (fun _ => 0) = some ws ∧
      decodeArray ws = some ((4000000000 :: List.replicate 127 1), ws.length) :=
  ⟨⟨by decide, by decide, by decide, by decide⟩,
    claim_c1 (4000000000 :: List.replicate 127 1) (fun _ => 0)
      (by decide) (by decide) (by decide) (by decide)⟩

/-- **C2**: for every block of exactly `BlockSize = 128` values and every
width `b ≤ 32`, feeding `uncompressblockPFOR` the packed words written by
`compressblockPFOR` at width `b`, together with exactly the exception values
it emitted and its returned first-exception position, reconstructs the
original 128 values. -/
theorem claim_c2 (inp : List ℕ) (b : ℕ) (hl : inp.length = BlockSize)
    (hv : ∀ v ∈ inp, v < 2 ^ 32) (hb : b ≤ 32) :
    uncompressblockPFOR (compressblockPFOR inp b).packed b
      (compressblockPFOR inp b).exceptions
      (compressblockPFOR inp b).firstexcept = inp :=
  block_roundtrip inp b hl hv hb

/-- A concrete instance of C2: one exception at position 0 and width 4. -/
theorem claim_c2_witness :
    ((16 :: List.replicate 127 2).length = BlockSize ∧
      (∀ v ∈ (16 :: List.replicate 127 2), v < 2 ^ 32) ∧ 4 ≤ 32) ∧
    uncompressblockPFOR (compressblockPFOR (16 :: List.replicate 127 2) 4).packed 4
      (compressblockPFOR (16 :: List.replicate 127 2) 4).exceptions
      (compressblockPFOR (16 :: List.replicate 127 2) 4).firstexcept =
      (16 :: List.replicate 127 2) :=
  ⟨⟨by decide, by decide, by decide⟩,
    claim_c2 (16 :: List.replicate 127 2) 4 (by decide) (by decide) (by decide)⟩

/-- **C3, counterexample**: the claim that the patched scratch copy handed to
the fixed-width pack contains only values `< 2 ^ b` fails: in the block
`[16, 0, ..., 0]` at width `b = 4` the patched copy still contains the raw
value `16 = 2 ^ 4` (at the last exception position, whose slot is never
overwritten with a gap code). -/
theorem claim_c3_counterexample :
    ¬ (∀ v ∈ (patchBlock (16 :: List.replicate 127 0) 4).1, v < 2 ^ 4) := by
  decide

/-- **C3, amended**: in a block with at least one exception compressed at
width `b < 32`, patching removes every value `≥ 2 ^ b` from the scratch copy
**except at the last chain position** (the final component of `patchBlock`),
whose slot keeps its raw value: every other slot is below `2 ^ b` when the
copy is handed to the fixed-width pack. -/
theorem claim_c3_amended (inp : List ℕ) (b : ℕ) (hl : inp.length = BlockSize)
    (hb : b < 32) (hmiss : missOf inp (2 ^ b) ≠ []) :
    ∀ q < BlockSize, q ≠ (patchBlock inp b).2.2 →
      (patchBlock inp b).1.getD q 0 < 2 ^ b := by
  intro q hq hqne
  have hP := patchBlock_spec inp b (le_of_eq hl) hmiss
  have hchain_pw := fullChain_pairwise inp b hmiss
  have hchain_lt := fullChain_mem_lt inp b hmiss
  have hchainR := fullChain_chain' inp b hmiss
  rw [hP] at hqne ⊢
  dsimp only at hqne ⊢
  by_cases hqmem : q ∈ fullChain inp b
  · obtain ⟨j, hj, hjq⟩ := mem_ne_getLastD_index (fullChain inp b) q hqmem hqne
    rw [← hjq]
    rw [applyGaps_getD_gap _ inp j hchain_pw hj
      (by
        rw [hl]
        have := hchain_lt _ (getD_mem_of_lt _ j (by omega))
        exact this)]
    have hR := chain'_getD _ _ hchainR j hj
    obtain ⟨h1, h2⟩ := hR
    generalize 2 ^ b = M at h2 ⊢
    omega
  · rw [applyGaps_getD_not_mem _ inp q (fun p hp => by
      intro hEq
      exact hqmem (hEq ▸ hp))]
    by_contra hge
    apply hqmem
    apply missOf_sub_fullChain inp b hmiss
    rw [missOf_mem]
    exact ⟨hq, by generalize 2 ^ b = M at hge ⊢; omega⟩

/-- The amended C3 at the counterexample's own block: every slot except the
last chain position is `< 2 ^ 4`. -/
theorem claim_c3_witness :
    ((16 :: List.replicate 127 0).length = BlockSize ∧ 4 < 32 ∧
      missOf (16 :: List.replicate 127 0) (2 ^ 4) ≠ []) ∧
    (∀ q < BlockSize, q ≠ (patchBlock (16 :: List.replicate 127 0) 4).2.2 →
      (patchBlock (16 :: List.replicate 127 0) 4).1.getD q 0 < 2 ^ 4) :=
  ⟨⟨by decide, by decide, by decide⟩,
    claim_c3_amended (16 :: List.replicate 127 0) 4 (by decide) (by decide) (by decide)⟩

/-- **C4**: the compulsory-exception insertion.  (i) While `cur - prev >
maxgap = 2 ^ b`, the encoder emits the value stored at `prev + maxgap`,
writes gap code `maxgap - 1` into slot `prev`, and advances `prev` by
`maxgap`.  (ii) Once `cur - prev ≤ maxgap`, it emits the value at `cur` and
writes gap code `cur - prev - 1` at `prev`.  (iii) When `maxgap ≥ BlockSize`
no compulsory exception is ever inserted: on a block's positions (all
` < BlockSize`) the patch loop coincides with the simple loop that omits the
compulsory branch. -/
theorem claim_c4 (b : ℕ) :
    (∀ (cc exc : List ℕ) (prev cur : ℕ), 2 ^ b + prev < cur →
      compulsoryLoop b cc exc prev cur =
        compulsoryLoop b (cc.set prev (2 ^ b - 1))
          (exc ++ [cc.getD (prev + 2 ^ b) 0]) (prev + 2 ^ b) cur) ∧
    (∀ (cc exc : List ℕ) (prev cur : ℕ) (rest : List ℕ), ¬ (2 ^ b + prev < cur) →
      patchLoop b cc exc prev (cur :: rest) =
        patchLoop b (cc.set prev (cur - prev - 1)) (exc ++ [cc.getD cur 0]) cur rest) ∧
    (BlockSize ≤ 2 ^ b → ∀ rest : List ℕ, (∀ x ∈ rest, x < BlockSize) →
      ∀ (cc exc : List ℕ) (prev : ℕ),
      patchLoop b cc exc prev rest = patchLoopSimple cc exc prev rest) := by
  refine ⟨?_, ?_, ?_⟩
  · intro cc exc prev cur h
    rw [compulsoryLoop, dif_pos h]
  · intro cc exc prev cur rest h
    rw [patchLoop, compulsoryLoop, dif_neg h]
  · intro hbig rest hrest cc exc prev
    refine (patchLoopSimple_eq b rest cc exc prev ?_).symm
    intro x hx
    have h1 := hrest x hx
    rw [BlockSize] at hbig h1
    omega

/-- A concrete instance of C4 at `b = 2`, `prev = 0`, `cur = 9`. -/
theorem claim_c4_witness :
    (2 ^ 2 + 0 < 9 ∧
      compulsoryLoop 2 (List.replicate 128 7) [] 0 9 =
        compulsoryLoop 2 ((List.replicate 128 7).set 0 (2 ^ 2 - 1))
          ([] ++ [(List.replicate 128 7).getD (0 + 2 ^ 2) 0]) (0 + 2 ^ 2) 9) ∧
    (BlockSize ≤ 2 ^ 7 ∧
      patchLoop 7 (List.replicate 128 7) [] 0 [9] =
        patchLoopSimple (List.replicate 128 7) [] 0 [9]) :=
  ⟨⟨by decide, (claim_c4 2).1 (List.replicate 128 7) [] 0 9 (by decide)⟩,
    ⟨by decide, (claim_c4 7).2.2 (by decide) [9] (by decide) (List.replicate 128 7) [] 0⟩⟩

/-- **C5**: `compressblockPFOR` returns the position of the block's first
exception — the smallest `k` with `in[k] ≥ 2 ^ b` — and `BlockSize = 128`
when no value of the block reaches `2 ^ b`; in particular it always returns
`BlockSize` when `b = 32`. -/
theorem claim_c5 (inp : List ℕ) (b : ℕ) (hl : inp.length = BlockSize)
    (hv : ∀ v ∈ inp, v < 2 ^ 32) (hb : b ≤ 32) :
    (((compressblockPFOR inp b).firstexcept = BlockSize ∧
        ∀ k < BlockSize, inp.getD k 0 < 2 ^ b) ∨
      ((compressblockPFOR inp b).firstexcept < BlockSize ∧
        2 ^ b ≤ inp.getD ((compressblockPFOR inp b).firstexcept) 0 ∧
        ∀ j < (compressblockPFOR inp b).firstexcept, inp.getD j 0 < 2 ^ b)) ∧
    (b = 32 → (compressblockPFOR inp b).firstexcept = BlockSize) := by
  refine ⟨compressblock_firstexcept_spec inp b hl hv hb, ?_⟩
  intro h
  subst h
  rw [compressblockPFOR, if_pos rfl]

/-- A concrete instance of C5: the first exception of `[0,0,9,...]` at width
3 is at position 2. -/
theorem claim_c5_witness :
    ((0 :: 0 :: 9 :: List.replicate 125 1).length = BlockSize ∧
      (∀ v ∈ (0 :: 0 :: 9 :: List.replicate 125 1), v < 2 ^ 32) ∧ 3 ≤ 32) ∧
    (((compressblockPFOR (0 :: 0 :: 9 :: List.replicate 125 1) 3).firstexcept =
          BlockSize ∧
        ∀ k < BlockSize, (0 :: 0 :: 9 :: List.replicate 125 1).getD k 0 < 2 ^ 3) ∨
      ((compressblockPFOR (0 :: 0 :: 9 :: List.replicate 125 1) 3).firstexcept <
          BlockSize ∧
        2 ^ 3 ≤ (0 :: 0 :: 9 :: List.replicate 125 1).getD
          ((compressblockPFOR (0 :: 0 :: 9 :: List.replicate 125 1) 3).firstexcept) 0 ∧
        ∀ j < (compressblockPFOR (0 :: 0 :: 9 :: List.replicate 125 1) 3).firstexcept,
          (0 :: 0 :: 9 :: List.replicate 125 1).getD j 0 < 2 ^ 3)) ∧
    (3 = 32 → (compressblockPFOR (0 :: 0 :: 9 :: List.replicate 125 1) 3).firstexcept =
      BlockSize) :=
  ⟨⟨by decide, by decide, by decide⟩,
    claim_c5 (0 :: 0 :: 9 :: List.replicate 125 1) 3 (by decide) (by decide) (by decide)⟩

/-- **C6**: in a chunk of `m` blocks, the word written just before block
`k`'s packed words — at index `2 + k * (1 + BlockSize * b / 32)` of the
chunk — is the header word packing the block's first-exception position
(`BlockSize = 128` encoding "no exception") into the low
`blocksizeinbits = ceil(log2(BlockSize + 1)) = 8` bits and the cumulative
exception-list index reached after this block into the high bits; masking
with `2 ^ 8 - 1` (i.e. reducing mod `2 ^ 8`) and shifting right by `8`
(dividing by `2 ^ 8`) recover exactly these two fields. -/
theorem claim_c6 (inp : List ℕ) (b m k : ℕ) (hb : b ≤ 32)
    (hlen : inp.length = BlockSize * m) (hsz : inp.length ≤ maxsize) (hk : k < m) :
    blocksizeinbits = 8 ∧
    (encodeChunkWithB inp b).getD (2 + k * (1 + BlockSize * b / 32)) 0 =
      headerWord
        (compressblockPFOR ((inp.drop (BlockSize * k)).take BlockSize) b).firstexcept
        (cumExc b inp (k + 1)) ∧
    headerWord
        (compressblockPFOR ((inp.drop (BlockSize * k)).take BlockSize) b).firstexcept
        (cumExc b inp (k + 1)) % 2 ^ blocksizeinbits =
      (compressblockPFOR ((inp.drop (BlockSize * k)).take BlockSize) b).firstexcept ∧
    headerWord
        (compressblockPFOR ((inp.drop (BlockSize * k)).take BlockSize) b).firstexcept
        (cumExc b inp (k + 1)) / 2 ^ blocksizeinbits = cumExc b inp (k + 1) := by
  have hbits : blocksizeinbits = 8 := rfl
  have hmax : maxsize = 2 ^ 23 := by norm_num [maxsize, blocksizeinbits]
  have hcumlt : cumExc b inp (k + 1) < 2 ^ 24 := by
    have h1 : cumExc b inp (k + 1) ≤ cumExc b inp m :=
      cumExc_mono b inp (k + 1) m (by omega)
    have h2 : (encodeBlocks b inp 0).2.length = cumExc b inp m :=
      encodeBlocks_exc_eq_cumExc b m inp 0 hlen
    have h3 : (encodeBlocks b inp 0).2.length ≤ inp.length :=
      encodeBlocks_exc_length_le b inp.length inp 0 le_rfl
    rw [hmax] at hsz
    omega
  have hfle := compressblock_firstexcept_le ((inp.drop (BlockSize * k)).take BlockSize) b
  obtain ⟨hmod, hdiv⟩ := headerWord_fields _ _ hfle hcumlt
  refine ⟨hbits, ?_, hmod, hdiv⟩
  rw [encodeChunkWithB]
  have hidx : 2 + k * (1 + BlockSize * b / 32) =
      (k * (1 + BlockSize * b / 32) + 1) + 1 := by ring
  rw [hidx, List.getD_cons_succ, List.getD_cons_succ]
  have hwl : (encodeBlocks b inp 0).1.length = m * (1 + BlockSize * b / 32) :=
    encodeBlocks_words_length b hb m inp 0 hlen
  rw [getD_append_left _ _ _ (by
    rw [hwl]
    have h5 : (k + 1) * (1 + BlockSize * b / 32) ≤ m * (1 + BlockSize * b / 32) :=
      Nat.mul_le_mul (by omega) (le_refl _)
    have h6 : k * (1 + BlockSize * b / 32) + (1 + BlockSize * b / 32) =
        (k + 1) * (1 + BlockSize * b / 32) := by ring
    omega)]
  have hh := encodeBlocks_header_getD b hb k m inp 0 hlen hk
  rw [hh, Nat.zero_add]

/-- A concrete instance of C6: the single block of an all-zero chunk at
width 0. -/
theorem claim_c6_witness :
    (0 ≤ 32 ∧ (List.replicate 128 0).length = BlockSize * 1 ∧
      (List.replicate 128 0).length ≤ maxsize ∧ 0 < 1) ∧
    (blocksizeinbits = 8 ∧
      (encodeChunkWithB (List.replicate 128 0) 0).getD
          (2 + 0 * (1 + BlockSize * 0 / 32)) 0 =
        headerWord
          (compressblockPFOR (((List.replicate 128 0).drop (BlockSize * 0)).take
            BlockSize) 0).firstexcept
          (cumExc 0 (List.replicate 128 0) (0 + 1)) ∧
      headerWord
          (compressblockPFOR (((List.replicate 128 0).drop (BlockSize * 0)).take
            BlockSize) 0).firstexcept
          (cumExc 0 (List.replicate 128 0) (0 + 1)) % 2 ^ blocksizeinbits =
        (compressblockPFOR (((List.replicate 128 0).drop (BlockSize * 0)).take
          BlockSize) 0).firstexcept ∧
      headerWord
          (compressblockPFOR (((List.replicate 128 0).drop (BlockSize * 0)).take
            BlockSize) 0).firstexcept
          (cumExc 0 (List.replicate 128 0) (0 + 1)) / 2 ^ blocksizeinbits =
        cumExc 0 (List.replicate 128 0) (0 + 1)) :=
  ⟨⟨by decide, by decide, by decide, by decide⟩,
    claim_c6 (List.replicate 128 0) 0 1 0 (by decide) (by decide) (by decide) (by decide)⟩

/-- **C7**: encoding an empty array produces output whose first word is 0
(`some [0]` — one word, the stored length), and decoding that output yields
zero recovered values and consumes exactly one word. -/
theorem claim_c7 (rnd : ℕ → ℕ) :
    encodeArray [] rnd = some [0] ∧ decodeArray [0] = some ([], 1) := by
  constructor
  · rw [encodeArray, encodeChunks]
    rfl
  · rfl

/-- C7 at a concrete random source. -/
theorem claim_c7_witness :
    encodeArray [] (fun _ => 0) = some [0] ∧ decodeArray [0] = some ([], 1) :=
  claim_c7 (fun _ => 0)

/-- **C8**: the chunk encoder rejects (assertion modelled as `none`) any
length not a multiple of `BlockSize = 128`; the chunk decoder likewise
rejects a chunk whose declared length is not a multiple of 128; the driver's
chunk bound `maxsize = 2 ^ (32 - 8 - 1)` is itself a multiple of 128, so
`encodeArray` on any total length not a multiple of 128 fails (on its final
chunk). -/
theorem claim_c8 :
    (∀ (inp : List ℕ) (rnd : ℕ), inp.length % BlockSize ≠ 0 →
      __encodeArray inp rnd = none) ∧
    (∀ words : List ℕ, words.getD 0 0 % BlockSize ≠ 0 → __decodeArray words = none) ∧
    maxsize % BlockSize = 0 ∧
    (∀ (inp : List ℕ) (rnd : ℕ → ℕ), inp.length % BlockSize ≠ 0 →
      encodeArray inp rnd = none) := by
  refine ⟨__encodeArray_none, __decodeArray_none, maxsize_mod, ?_⟩
  intro inp rnd h
  rw [encodeArray, encodeChunks_none rnd inp.length inp 0 le_rfl h]
  rfl

/-- C8 at length 130 (not a multiple of 128). -/
theorem claim_c8_witness :
    ((List.replicate 130 0).length % BlockSize ≠ 0 ∧
      [130].getD 0 0 % BlockSize ≠ 0) ∧
    (__encodeArray (List.replicate 130 0) 0 = none ∧
      __decodeArray [130] = none ∧
      encodeArray (List.replicate 130 0) (fun _ => 0) = none) :=
  ⟨⟨by decide, by decide⟩,
    ⟨claim_c8.1 (List.replicate 130 0) 0 (by decide),
      claim_c8.2.1 [130] (by decide),
      claim_c8.2.2.2 (List.replicate 130 0) (fun _ => 0) (by decide)⟩⟩

/-- **C9**: for arrays of length between 1 and 65536 the sample is the whole
array starting at offset 0, so `determineBestBase` is deterministic: two
calls on the same input agree regardless of the random draw. -/
theorem claim_c9 (inp : List ℕ) (size : ℕ) (h1 : 1 ≤ size) (h2 : size ≤ 65536)
    (r1 r2 : ℕ) : determineBestBase inp size r1 = determineBestBase inp size r2 := by
  simp only [determineBestBase]
  have hz : ¬ (size = 0) := by omega
  rw [if_neg hz, if_neg hz]
  have hss : ¬ (size > 64 * 1024) := by omega
  rw [if_neg hss]
  rw [if_neg (lt_irrefl size), if_neg (lt_irrefl size)]

/-- C9 at a concrete one-element array and two different draws. -/
theorem claim_c9_witness :
    (1 ≤ 1 ∧ 1 ≤ 65536) ∧ determineBestBase [5] 1 0 = determineBestBase [5] 1 7 :=
  ⟨⟨by decide, by decide⟩, claim_c9 [5] 1 (by decide) (by decide) 0 7⟩

/-- **C10**: the exception values one block emits are the original values at
a strictly increasing (hence distinct) list of in-block positions, all below
`BlockSize` and below the block's length; consequently a block emits at most
`BlockSize = 128` exception values and at most its own length, and a whole
chunk emits at most its length `len` in total — the exception buffer of
capacity `len` reserved by `__encodeArray` is never overrun. -/
theorem claim_c10 :
    (∀ (inp : List ℕ) (b : ℕ), inp.length ≤ BlockSize →
      ∃ chain : List ℕ, chain.Pairwise (· < ·) ∧
        (∀ p ∈ chain, p < BlockSize ∧ p < inp.length) ∧
        (compressblockPFOR inp b).exceptions = chain.map (fun p => inp.getD p 0)) ∧
    (∀ (inp : List ℕ) (b : ℕ), inp.length ≤ BlockSize →
      (compressblockPFOR inp b).exceptions.length ≤ BlockSize ∧
      (compressblockPFOR inp b).exceptions.length ≤ inp.length) ∧
    (∀ (b : ℕ) (inp : List ℕ) (e : ℕ),
      (encodeBlocks b inp e).2.length ≤ inp.length) := by
  refine ⟨compressblock_exceptions_chain, ?_, ?_⟩
  · intro inp b h
    exact ⟨(compressblock_exceptions_le inp b h).2, (compressblock_exceptions_le inp b h).1⟩
  · intro b inp e
    exact encodeBlocks_exc_length_le b inp.length inp e le_rfl

/-- C10 at a concrete block with exceptions at width 4. -/
theorem claim_c10_witness :
    ((16 :: List.replicate 127 2).length ≤ BlockSize) ∧
    ((∃ chain : List ℕ, chain.Pairwise (· < ·) ∧
        (∀ p ∈ chain, p < BlockSize ∧ p < (16 :: List.replicate 127 2).length) ∧
        (compressblockPFOR (16 :: List.replicate 127 2) 4).exceptions =
          chain.map (fun p => (16 :: List.replicate 127 2).getD p 0)) ∧
      ((compressblockPFOR (16 :: List.replicate 127 2) 4).exceptions.length ≤
          BlockSize ∧
        (compressblockPFOR (16 :: List.replicate 127 2) 4).exceptions.length ≤
          (16 :: List.replicate 127 2).length) ∧
      (encodeBlocks 4 (16 :: List.replicate 127 2) 0).2.length ≤
        (16 :: List.replicate 127 2).length) :=
  ⟨by decide,
    claim_c10.1 (16 :: List.replicate 127 2) 4 (by decide),
    ⟨claim_c10.2.1 (16 :: List.replicate 127 2) 4 (by decide),
      claim_c10.2.2 4 (16 :: List.replicate 127 2) 0⟩⟩

end PFor

